import Mathlib

/-!
The `uri` ammo decoder of pandora (`ammo/uri/decoder.go`).

A shallow embedding of `decoder`, `newDecoder`, `Decode`, `decodeURI`, `decodeHeader` and
`ResetHeader`, together with the Go standard-library functions they call
(`bytes.IndexByte`, `bytes.TrimSpace`, `http.Header.Set`, `http.NewRequest`, `url.Parse`),
followed by theorems about the decoder.

Conventions.
* A Go `[]byte` or `string` is a `List Nat`; a byte is a natural number below 256.
* A Go map is a list of entries with pairwise distinct keys; the order of the list carries
  no meaning, and every statement about a map is made through `lookup` or through its entries.
* The standard library is modelled after Go 1.22 (`bytes`, `unicode/utf8`, `net/textproto`,
  `net/url`, `net/http`).
* `ammoNum` is a Go `int`, 32 or 64 bits wide depending on the platform; it is an `Int` here and
  `ammoNum++` wraps around in two's complement (`wrapInt`).
-/

namespace uri

/-! ## Bytes and strings -/

/-- Go `[]byte` and `string`: a sequence of bytes. -/
abbrev Bytes := List Nat

/-- The UTF-8 bytes of a string literal. -/
def str (s : String) : Bytes :=
  (s.data.flatMap String.utf8EncodeChar).map UInt8.toNat

/-- Go slice expression `s[i:j]`. -/
def slice (s : Bytes) (i j : Nat) : Bytes := (s.take j).drop i

/-- Go `bytes.IndexByte` and `strings.IndexByte`: index of the first `c` in `s`, or -1. -/
def IndexByte (s : Bytes) (c : Nat) : Int :=
  match s with
  | [] => -1
  | b :: rest =>
    if b = c then 0
    else
      let i := IndexByte rest c
      if i < 0 then -1 else i + 1

/-- Go `strings.LastIndexByte`: index of the last `c` in `s`, or -1. -/
def LastIndexByte (s : Bytes) (c : Nat) : Int :=
  match s with
  | [] => -1
  | b :: rest =>
    let i := LastIndexByte rest c
    if 0 ≤ i then i + 1 else if b = c then 0 else -1

/-- Go `strings.HasPrefix`. -/
def HasPrefix (s p : Bytes) : Bool := p.isPrefixOf s

/-- Go `strings.HasSuffix`. -/
def HasSuffix (s p : Bytes) : Bool := p.isSuffixOf s

/-- Go `strings.Index`: index of the first occurrence of `sep` in `s`, or -1. -/
def Index (s sep : Bytes) : Int :=
  if HasPrefix s sep then 0
  else
    match s with
    | [] => -1
    | _ :: rest =>
      let i := Index rest sep
      if i < 0 then -1 else i + 1

/-- Go `strings.Cut` with a one-byte separator: the text before and after the first `sep`
and whether `sep` was found. -/
def Cut (s : Bytes) (sep : Nat) : Bytes × Bytes × Bool :=
  let i := IndexByte s sep
  if 0 ≤ i then (s.take i.toNat, s.drop (i.toNat + 1), true) else (s, [], false)

/-! ## `unicode/utf8` and `bytes.TrimSpace` -/

def RuneError : Nat := 0xFFFD
def RuneSelf : Nat := 0x80
def UTFMax : Nat := 4

/-- The table `first` of `unicode/utf8`: information about the first byte of an encoding. -/
def first (b : Nat) : Nat :=
  if b < 0x80 then 0xF0
  else if b < 0xC2 then 0xF1
  else if b < 0xE0 then 0x02
  else if b = 0xE0 then 0x13
  else if b < 0xED then 0x03
  else if b = 0xED then 0x23
  else if b < 0xF0 then 0x03
  else if b = 0xF0 then 0x34
  else if b < 0xF4 then 0x04
  else if b = 0xF4 then 0x44
  else 0xF1

/-- The table `acceptRanges` of `unicode/utf8`: bounds on the second byte. -/
def acceptRanges (i : Nat) : Nat × Nat :=
  match i with
  | 0 => (0x80, 0xBF)
  | 1 => (0xA0, 0xBF)
  | 2 => (0x80, 0x9F)
  | 3 => (0x90, 0xBF)
  | 4 => (0x80, 0x8F)
  | _ => (0, 0)

/-- Go `utf8.DecodeRune`: the first rune of `p` and its width in bytes. -/
def DecodeRune (p : Bytes) : Nat × Nat :=
  match p with
  | [] => (RuneError, 0)
  | p0 :: t =>
    let x := first p0
    if x ≥ 0xF0 then
      if x = 0xF1 then (RuneError, 1) else (p0, 1)
    else
      let sz := x &&& 7
      let accept := acceptRanges (x >>> 4)
      if p.length < sz then (RuneError, 1)
      else
        let b1 := t.getD 0 0
        if b1 < accept.1 ∨ accept.2 < b1 then (RuneError, 1)
        else if sz ≤ 2 then (((p0 &&& 0x1F) <<< 6) ||| (b1 &&& 0x3F), 2)
        else
          let b2 := t.getD 1 0
          if b2 < 0x80 ∨ 0xBF < b2 then (RuneError, 1)
          else if sz ≤ 3 then
            (((p0 &&& 0x0F) <<< 12) ||| ((b1 &&& 0x3F) <<< 6) ||| (b2 &&& 0x3F), 3)
          else
            let b3 := t.getD 2 0
            if b3 < 0x80 ∨ 0xBF < b3 then (RuneError, 1)
            else
              (((p0 &&& 0x07) <<< 18) ||| ((b1 &&& 0x3F) <<< 12) ||| ((b2 &&& 0x3F) <<< 6)
                ||| (b3 &&& 0x3F), 4)

/-- Go `utf8.RuneStart`. -/
def RuneStart (b : Nat) : Bool := b &&& 0xC0 != 0x80

/-- The backward scan of `utf8.DecodeLastRune`:
`for start--; start >= lim; start-- { if RuneStart(p[start]) { break } }`,
entered with `start` already decremented. It runs at most `UTFMax` times. -/
def lastRuneScan (p : Bytes) (lim : Int) : Nat → Int → Int
  | 0, start => start
  | fuel + 1, start =>
    if lim ≤ start then
      if RuneStart (p.getD start.toNat 0) then start
      else lastRuneScan p lim fuel (start - 1)
    else start

/-- Go `utf8.DecodeLastRune`: the last rune of `p` and its width in bytes. -/
def DecodeLastRune (p : Bytes) : Nat × Nat :=
  let e := p.length
  if e = 0 then (RuneError, 0)
  else
    let r := p.getD (e - 1) 0
    if r < RuneSelf then (r, 1)
    else
      let lim : Int := if (e : Int) - UTFMax < 0 then 0 else (e : Int) - UTFMax
      let start0 := lastRuneScan p lim UTFMax ((e : Int) - 2)
      let start := if start0 < 0 then 0 else start0.toNat
      let d := DecodeRune (slice p start e)
      if start + d.2 ≠ e then (RuneError, 1) else d

/-- Go `unicode.IsSpace`. -/
def IsSpace (r : Nat) : Bool :=
  if r ≤ 0xFF then
    r = 9 ∨ r = 10 ∨ r = 11 ∨ r = 12 ∨ r = 13 ∨ r = 32 ∨ r = 0x85 ∨ r = 0xA0
  else
    r = 0x1680 ∨ (0x2000 ≤ r ∧ r ≤ 0x200A) ∨ r = 0x2028 ∨ r = 0x2029 ∨ r = 0x202F
      ∨ r = 0x205F ∨ r = 0x3000

/-- The loop of `bytes.indexFunc(s, f, truth)`, from byte offset `start`. Every turn advances
by at least one byte, so `fuel = len(s) + 1` is enough. -/
def indexFuncLoop (s : Bytes) (f : Nat → Bool) (truth : Bool) : Nat → Nat → Int
  | 0, _ => -1
  | fuel + 1, start =>
    if start < s.length then
      let r0 := s.getD start 0
      let d := if RuneSelf ≤ r0 then DecodeRune (s.drop start) else (r0, 1)
      if f d.1 = truth then (start : Int)
      else indexFuncLoop s f truth fuel (start + d.2)
    else -1

/-- Go `bytes.indexFunc`. -/
def indexFunc (s : Bytes) (f : Nat → Bool) (truth : Bool) : Int :=
  indexFuncLoop s f truth (s.length + 1) 0

/-- The loop of `bytes.lastIndexFunc(s, f, truth)`, from byte offset `i`. -/
def lastIndexFuncLoop (s : Bytes) (f : Nat → Bool) (truth : Bool) : Nat → Nat → Int
  | 0, _ => -1
  | fuel + 1, i =>
    if 0 < i then
      let r0 := s.getD (i - 1) 0
      let d := if RuneSelf ≤ r0 then DecodeLastRune (s.take i) else (r0, 1)
      let j := i - d.2
      if f d.1 = truth then (j : Int)
      else lastIndexFuncLoop s f truth fuel j
    else -1

/-- Go `bytes.lastIndexFunc`. -/
def lastIndexFunc (s : Bytes) (f : Nat → Bool) (truth : Bool) : Int :=
  lastIndexFuncLoop s f truth (s.length + 1) s.length

/-- Go `bytes.TrimLeftFunc`. -/
def TrimLeftFunc (s : Bytes) (f : Nat → Bool) : Bytes :=
  let i := indexFunc s f false
  if i = -1 then [] else s.drop i.toNat

/-- Go `bytes.TrimRightFunc`. -/
def TrimRightFunc (s : Bytes) (f : Nat → Bool) : Bytes :=
  let i := lastIndexFunc s f false
  if 0 ≤ i ∧ RuneSelf ≤ s.getD i.toNat 0 then
    s.take (i.toNat + (DecodeRune (s.drop i.toNat)).2)
  else s.take (i + 1).toNat

/-- Go `bytes.TrimSpace`: `s` without leading and trailing white space, as defined by Unicode
(`TrimFunc(s, unicode.IsSpace)`). -/
def TrimSpace (s : Bytes) : Bytes := TrimRightFunc (TrimLeftFunc s IsSpace) IsSpace

/-! ## `net/textproto`: canonical header keys -/

/-- Go `textproto.validHeaderFieldByte`: the token bytes of RFC 7230, the only bytes allowed
in a header field name. -/
def validHeaderFieldByte (c : Nat) : Bool :=
  (48 ≤ c ∧ c ≤ 57) ∨ (65 ≤ c ∧ c ≤ 90) ∨ (97 ≤ c ∧ c ≤ 122) ∨
    c ∈ [33, 35, 36, 37, 38, 39, 42, 43, 45, 46, 94, 95, 96, 124, 126]

def isLowerAZ (c : Nat) : Bool := 97 ≤ c ∧ c ≤ 122
def isUpperAZ (c : Nat) : Bool := 65 ≤ c ∧ c ≤ 90

/-- The constant `toLower` of `net/textproto`. -/
def toLower : Nat := 32

/-- The rewriting loop of `textproto.canonicalMIMEHeaderKey`: upper case for the first letter
and for a letter after `-`, lower case elsewhere. -/
def canonLoop (upper : Bool) : Bytes → Bytes
  | [] => []
  | c :: rest =>
    let c1 :=
      if upper ∧ isLowerAZ c then c - toLower
      else if ¬ upper ∧ isUpperAZ c then c + toLower
      else c
    c1 :: canonLoop (c1 = 45) rest

/-- Go `textproto.canonicalMIMEHeaderKey`: a key holding a byte that is not a token byte is
returned unchanged (a space too: such a key is accepted but not canonicalized). -/
def canonicalMIMEHeaderKey (a : Bytes) : Bytes :=
  if a.all validHeaderFieldByte then canonLoop true a else a

/-- The quick check at the head of `textproto.CanonicalMIMEHeaderKey`, over the unread rest of
the key `s`. -/
def canonScan (s : Bytes) (upper : Bool) : Bytes → Bytes
  | [] => s
  | c :: rest =>
    if ¬ validHeaderFieldByte c then s
    else if upper ∧ isLowerAZ c then canonicalMIMEHeaderKey s
    else if ¬ upper ∧ isUpperAZ c then canonicalMIMEHeaderKey s
    else canonScan s (c = 45) rest

/-- Go `textproto.CanonicalMIMEHeaderKey`. -/
def CanonicalMIMEHeaderKey (s : Bytes) : Bytes := canonScan s true s

/-! ## `http.Header` -/

/-- Go `http.Header`, a `map[string][]string`: entries with pairwise distinct keys. -/
structure Header where
  entries : List (Bytes × List Bytes)
  nodupKeys : (entries.map Prod.fst).Nodup
deriving DecidableEq

namespace Header

/-- The empty map, `http.Header{}` or `make(Header)`. -/
def empty : Header := ⟨[], List.nodup_nil⟩

/-- The map index expression `h[k]` in its comma-ok form. -/
def lookup (h : Header) (k : Bytes) : Option (List Bytes) :=
  (h.entries.find? (fun e => e.1 = k)).map Prod.snd

/-- The map assignment `h[k] = v`. -/
def assign (h : Header) (k : Bytes) (v : List Bytes) : Header :=
  ⟨(k, v) :: h.entries.filter (fun e => e.1 ≠ k), by
    rw [List.map_cons, List.nodup_cons]
    refine ⟨?_, (List.Sublist.map Prod.fst (List.filter_sublist h.entries)).nodup h.nodupKeys⟩
    intro hmem
    rcases List.mem_map.1 hmem with ⟨e, he, hk⟩
    have hne := (List.mem_filter.1 he).2
    simp [hk] at hne⟩

/-- The builtin `delete(h, k)`. -/
def delete (h : Header) (k : Bytes) : Header :=
  ⟨h.entries.filter (fun e => e.1 ≠ k),
    (List.Sublist.map Prod.fst (List.filter_sublist h.entries)).nodup h.nodupKeys⟩

/-- Go `http.Header.Set`: `h[CanonicalMIMEHeaderKey(key)] = []string{value}`. -/
def Set (h : Header) (key value : Bytes) : Header :=
  h.assign (CanonicalMIMEHeaderKey key) [value]

end Header

/-! ## `net/url` -/

/-- The failures of `url.Parse`. -/
inductive URLError
  /-- The message "net/url: invalid control character in URL". -/
  | invalidControlCharacter
  /-- The message "empty url". -/
  | emptyURL
  /-- The message "missing protocol scheme". -/
  | missingProtocolScheme
  /-- The message "invalid URI for request". -/
  | invalidURIForRequest
  /-- The message "first path segment in URL cannot contain colon". -/
  | firstPathSegmentColon
  /-- Go `url.EscapeError`, "invalid URL escape". -/
  | escapeError (s : Bytes)
  /-- Go `url.InvalidHostError`, "invalid character in host name". -/
  | invalidHostError (s : Bytes)
  /-- The message "missing ']' in host". -/
  | missingBracket
  /-- The message "invalid port ... after host". -/
  | invalidPort (s : Bytes)
  /-- The message "net/url: invalid userinfo". -/
  | invalidUserinfo
deriving DecidableEq, Repr

/-- Go `url.Userinfo`. -/
structure Userinfo where
  username : Bytes
  password : Bytes
  passwordSet : Bool
deriving DecidableEq, Repr

/-- Go `url.URL`. -/
structure URL where
  Scheme : Bytes := []
  Opaque : Bytes := []
  User : Option Userinfo := none
  Host : Bytes := []
  Path : Bytes := []
  RawPath : Bytes := []
  OmitHost : Bool := false
  ForceQuery : Bool := false
  RawQuery : Bytes := []
  Fragment : Bytes := []
  RawFragment : Bytes := []
deriving DecidableEq, Repr

/-- The type `encoding` of `net/url`. -/
inductive encoding
  | encodePath
  | encodePathSegment
  | encodeHost
  | encodeZone
  | encodeUserPassword
  | encodeQueryComponent
  | encodeFragment
deriving DecidableEq, Repr

open encoding

def ishex (c : Nat) : Bool :=
  (48 ≤ c ∧ c ≤ 57) ∨ (97 ≤ c ∧ c ≤ 102) ∨ (65 ≤ c ∧ c ≤ 70)

def unhex (c : Nat) : Nat :=
  if 48 ≤ c ∧ c ≤ 57 then c - 48
  else if 97 ≤ c ∧ c ≤ 102 then c - 97 + 10
  else if 65 ≤ c ∧ c ≤ 70 then c - 65 + 10
  else 0

def isAlnum (c : Nat) : Bool :=
  (97 ≤ c ∧ c ≤ 122) ∨ (65 ≤ c ∧ c ≤ 90) ∨ (48 ≤ c ∧ c ≤ 57)

/-- Go `url.shouldEscape`: whether byte `c` must be escaped in the given part of a URL. -/
def shouldEscape (c : Nat) (mode : encoding) : Bool :=
  if isAlnum c then false
  -- ! $ & ' ( ) * + , ; = : [ ] < > "
  else if (mode = encodeHost ∨ mode = encodeZone) ∧
      c ∈ [33, 36, 38, 39, 40, 41, 42, 43, 44, 59, 61, 58, 91, 93, 60, 62, 34] then false
  -- - _ . ~
  else if c ∈ [45, 95, 46, 126] then false
  -- $ & + , / : ; = ? @
  else if c ∈ [36, 38, 43, 44, 47, 58, 59, 61, 63, 64] ∧ mode = encodePath then c = 63
  else if c ∈ [36, 38, 43, 44, 47, 58, 59, 61, 63, 64] ∧ mode = encodePathSegment then
    c = 47 ∨ c = 59 ∨ c = 44 ∨ c = 63
  else if c ∈ [36, 38, 43, 44, 47, 58, 59, 61, 63, 64] ∧ mode = encodeUserPassword then
    c = 64 ∨ c = 47 ∨ c = 63 ∨ c = 58
  else if c ∈ [36, 38, 43, 44, 47, 58, 59, 61, 63, 64] ∧ mode = encodeQueryComponent then true
  else if c ∈ [36, 38, 43, 44, 47, 58, 59, 61, 63, 64] ∧ mode = encodeFragment then false
  -- ! ( ) *
  else if mode = encodeFragment ∧ c ∈ [33, 40, 41, 42] then false
  else true

/-- The first loop of `url.unescape`: counts the `%` in `n`, checks that every escape is well
formed and allowed in `mode`, and records in `hasPlus` whether a `+` stands for a space. -/
def unescapeCheck (mode : encoding) (n : Nat) (hasPlus : Bool) :
    Bytes → Except URLError (Nat × Bool)
  | [] => .ok (n, hasPlus)
  | c :: rest =>
    if c = 37 then
      match rest with
      | h1 :: h2 :: rest2 =>
        if ¬ ishex h1 ∨ ¬ ishex h2 then .error (.escapeError ((c :: rest).take 3))
        else if mode = encodeHost ∧ unhex h1 < 8 ∧ [c, h1, h2] ≠ [37, 50, 53] then
          .error (.escapeError [c, h1, h2])
        else if mode = encodeZone ∧ [c, h1, h2] ≠ [37, 50, 53] ∧
            ((unhex h1 <<< 4) ||| unhex h2) ≠ 32 ∧
            shouldEscape ((unhex h1 <<< 4) ||| unhex h2) encodeHost then
          .error (.escapeError [c, h1, h2])
        else unescapeCheck mode (n + 1) hasPlus rest2
      | _ => .error (.escapeError ((c :: rest).take 3))
    else if c = 43 then
      unescapeCheck mode n (mode = encodeQueryComponent) rest
    else if (mode = encodeHost ∨ mode = encodeZone) ∧ c < 0x80 ∧ shouldEscape c encodeHost then
      .error (.invalidHostError [c])
    else unescapeCheck mode n hasPlus rest

/-- The second loop of `url.unescape`, run on a string that passed the first. -/
def unescapeBuild (mode : encoding) : Bytes → Bytes
  | [] => []
  | c :: rest =>
    if c = 37 then
      match rest with
      | h1 :: h2 :: rest2 => ((unhex h1 <<< 4) ||| unhex h2) :: unescapeBuild mode rest2
      | _ => []
    else if c = 43 then
      (if mode = encodeQueryComponent then 32 else 43) :: unescapeBuild mode rest
    else c :: unescapeBuild mode rest

/-- Go `url.unescape`. -/
def unescape (s : Bytes) (mode : encoding) : Except URLError Bytes :=
  match unescapeCheck mode 0 false s with
  | .error e => .error e
  | .ok (n, hasPlus) => if n = 0 ∧ ¬ hasPlus then .ok s else .ok (unescapeBuild mode s)

/-- The string `upperhex` of `net/url`, indexed. -/
def upperhex (i : Nat) : Nat := if i < 10 then 48 + i else 65 + (i - 10)

/-- Go `url.escape`. A string in which nothing is to be escaped comes back unchanged, which
is also what the rewriting loop yields. -/
def escape (s : Bytes) (mode : encoding) : Bytes :=
  s.flatMap (fun c =>
    if c = 32 ∧ mode = encodeQueryComponent then [43]
    else if shouldEscape c mode then [37, upperhex (c >>> 4), upperhex (c &&& 15)]
    else [c])

/-- Go `url.stringContainsCTLByte`. -/
def stringContainsCTLByte (s : Bytes) : Bool := s.any (fun b => b < 32 ∨ b = 0x7f)

def isAlpha (c : Nat) : Bool := (97 ≤ c ∧ c ≤ 122) ∨ (65 ≤ c ∧ c ≤ 90)

/-- The loop of `url.getScheme` at index `i`, over the unread rest of `rawURL`. -/
def getSchemeLoop (rawURL : Bytes) (i : Nat) : Bytes → Except URLError (Bytes × Bytes)
  | [] => .ok ([], rawURL)
  | c :: rest =>
    if isAlpha c then getSchemeLoop rawURL (i + 1) rest
    else if (48 ≤ c ∧ c ≤ 57) ∨ c = 43 ∨ c = 45 ∨ c = 46 then
      if i = 0 then .ok ([], rawURL) else getSchemeLoop rawURL (i + 1) rest
    else if c = 58 then
      if i = 0 then .error .missingProtocolScheme
      else .ok (rawURL.take i, rawURL.drop (i + 1))
    else .ok ([], rawURL)

/-- Go `url.getScheme`: splits `scheme:path`; with no valid scheme the scheme is empty. -/
def getScheme (rawURL : Bytes) : Except URLError (Bytes × Bytes) :=
  getSchemeLoop rawURL 0 rawURL

/-- Go `url.validOptionalPort`: `port` is empty or a colon followed by decimal digits. -/
def validOptionalPort (port : Bytes) : Bool :=
  match port with
  | [] => true
  | c :: rest => c = 58 ∧ rest.all (fun b => 48 ≤ b ∧ b ≤ 57)

/-- Go `url.validUserinfo`. A byte outside ASCII belongs to a rune outside the allowed set,
so the check by bytes agrees with the check by runes. -/
def validUserinfo (s : Bytes) : Bool :=
  s.all (fun r => isAlnum r ∨
    -- - . _ : ~ ! $ & ' ( ) * + , ; = % @
    r ∈ [45, 46, 95, 58, 126, 33, 36, 38, 39, 40, 41, 42, 43, 44, 59, 61, 37, 64])

/-- Go `url.parseHost`. -/
def parseHost (host : Bytes) : Except URLError Bytes :=
  if HasPrefix host [91] then
    let i := LastIndexByte host 93
    if i < 0 then .error .missingBracket
    else
      let colonPort := host.drop (i.toNat + 1)
      if ¬ validOptionalPort colonPort then .error (.invalidPort colonPort)
      else
        let zone := Index (host.take i.toNat) [37, 50, 53]
        if 0 ≤ zone then do
          let host1 ← unescape (host.take zone.toNat) encodeHost
          let host2 ← unescape (slice host zone.toNat i.toNat) encodeZone
          let host3 ← unescape (host.drop i.toNat) encodeHost
          pure (host1 ++ host2 ++ host3)
        else unescape host encodeHost
  else
    let i := LastIndexByte host 58
    if i ≠ -1 ∧ ¬ validOptionalPort (host.drop i.toNat) then
      .error (.invalidPort (host.drop i.toNat))
    else unescape host encodeHost

/-- Go `url.parseAuthority`: the text between `//` and the next `/`, as user and host. -/
def parseAuthority (authority : Bytes) : Except URLError (Option Userinfo × Bytes) :=
  let i := LastIndexByte authority 64
  match (if i < 0 then parseHost authority else parseHost (authority.drop (i.toNat + 1))) with
  | .error e => .error e
  | .ok host =>
    if i < 0 then .ok (none, host)
    else
      let userinfo := authority.take i.toNat
      if ¬ validUserinfo userinfo then .error .invalidUserinfo
      else if ¬ (58 ∈ userinfo) then do
        let u ← unescape userinfo encodeUserPassword
        pure (some ⟨u, [], false⟩, host)
      else do
        let c := Cut userinfo 58
        let username ← unescape c.1 encodeUserPassword
        let password ← unescape c.2.1 encodeUserPassword
        pure (some ⟨username, password, true⟩, host)

/-- Go `(*URL).setPath`. -/
def URL.setPath (u : URL) (p : Bytes) : Except URLError URL :=
  match unescape p encodePath with
  | .error e => .error e
  | .ok path =>
    .ok { u with Path := path, RawPath := if p = escape path encodePath then [] else p }

/-- Go `(*URL).setFragment`. -/
def URL.setFragment (u : URL) (f : Bytes) : Except URLError URL :=
  match unescape f encodeFragment with
  | .error e => .error e
  | .ok frag =>
    .ok { u with Fragment := frag,
                 RawFragment := if f = escape frag encodeFragment then [] else f }

/-- Go `strings.ToLower` on a scheme, which `getScheme` leaves in ASCII. -/
def ToLowerASCII (s : Bytes) : Bytes := s.map (fun c => if isUpperAZ c then c + 32 else c)

/-- Go `url.parse`: parses a URL without fragment; `viaRequest` says whether the URL came
from an HTTP request line. -/
def parse (rawURL : Bytes) (viaRequest : Bool) : Except URLError URL :=
  if stringContainsCTLByte rawURL then .error .invalidControlCharacter
  else if rawURL = [] ∧ viaRequest then .error .emptyURL
  else if rawURL = [42] then .ok { Path := [42] }
  else
    match getScheme rawURL with
    | .error e => .error e
    | .ok (scheme0, rest0) =>
      let scheme := ToLowerASCII scheme0
      let forceQuery : Bool := HasSuffix rest0 [63] ∧ rest0.count 63 = 1
      let rest1 := if forceQuery then rest0.take (rest0.length - 1) else (Cut rest0 63).1
      let rawQuery := if forceQuery then [] else (Cut rest0 63).2.1
      let url : URL := { Scheme := scheme, ForceQuery := forceQuery, RawQuery := rawQuery }
      if ¬ HasPrefix rest1 [47] ∧ scheme ≠ [] then .ok { url with Opaque := rest1 }
      else if ¬ HasPrefix rest1 [47] ∧ viaRequest then .error .invalidURIForRequest
      else if ¬ HasPrefix rest1 [47] ∧ 58 ∈ (Cut rest1 47).1 then .error .firstPathSegmentColon
      else if (scheme ≠ [] ∨ (¬ viaRequest ∧ ¬ HasPrefix rest1 [47, 47, 47])) ∧
          HasPrefix rest1 [47, 47] then
        let a0 := rest1.drop 2
        let i := IndexByte a0 47
        let authority := if 0 ≤ i then a0.take i.toNat else a0
        let rest2 := if 0 ≤ i then a0.drop i.toNat else []
        match parseAuthority authority with
        | .error e => .error e
        | .ok (user, host) => URL.setPath { url with User := user, Host := host } rest2
      else if scheme ≠ [] ∧ HasPrefix rest1 [47] then
        URL.setPath { url with OmitHost := true } rest1
      else URL.setPath url rest1

/-- Go `url.Parse`: cuts off the fragment, parses the rest, then sets the fragment. -/
def Parse (rawURL : Bytes) : Except URLError URL :=
  let c := Cut rawURL 35
  match parse c.1 false with
  | .error e => .error e
  | .ok url => if c.2.1 = [] then .ok url else url.setFragment c.2.1

/-! ## `net/http`: requests -/

/-- The failures of `http.NewRequest`. -/
inductive RequestError
  /-- The message "net/http: invalid method". -/
  | invalidMethod
  /-- Go `*url.Error` with operation "parse". -/
  | parseError (e : URLError)
deriving DecidableEq, Repr

/-- Go `http.Request`, as far as `http.NewRequest` with a nil body fills it in. -/
structure Request where
  Method : Bytes
  URL : URL
  Proto : Bytes
  ProtoMajor : Nat
  ProtoMinor : Nat
  Header : Header
  Host : Bytes
deriving DecidableEq

/-- Go `http.validMethod`: a non-empty token. -/
def validMethod (method : Bytes) : Bool :=
  method ≠ [] ∧ method.all validHeaderFieldByte

/-- Go `http.hasPort`. -/
def hasPort (s : Bytes) : Bool := LastIndexByte s 93 < LastIndexByte s 58

/-- Go `http.removeEmptyPort`: strips an empty port, `host:` to `host`. -/
def removeEmptyPort (host : Bytes) : Bytes :=
  if hasPort host ∧ HasSuffix host [58] then host.take (host.length - 1) else host

/-- Go `http.NewRequest(method, url, nil)`. -/
def NewRequest (method url : Bytes) : Except RequestError Request :=
  let method := if method = [] then str "GET" else method
  if ¬ validMethod method then .error .invalidMethod
  else
    match Parse url with
    | .error e => .error (.parseError e)
    | .ok u =>
      let u := { u with Host := removeEmptyPort u.Host }
      .ok { Method := method, URL := u, Proto := str "HTTP/1.1", ProtoMajor := 1,
            ProtoMinor := 1, Header := Header.empty, Host := u.Host }

/-! ## The decoder (`ammo/uri/decoder.go`) -/

/-- The error `ctx.Err()` of a context whose `Done` channel is closed. -/
inductive CtxError
  /-- Go `context.Canceled`. -/
  | Canceled
  /-- Go `context.DeadlineExceeded`. -/
  | DeadlineExceeded
deriving DecidableEq, Repr

/-- The errors `Decode` returns, one per `return` statement with a non-nil error. -/
inductive DecodeError
  /-- Line 43, `stackerr.Newf("empty line")`. -/
  | EmptyLine
  /-- Line 51, `stackerr.Newf("every line should begin with '[' or '/'")`. -/
  | MalformedLine
  /-- Line 58, `stackerr.Newf("uri decode error: ", err)`. -/
  | UriParseError (err : RequestError)
  /-- Line 82, `stackerr.Newf("header line should be like '[key: value]")`. -/
  | MalformedHeaderLine
  /-- Line 87, `stackerr.Newf("missing colon")`. -/
  | MissingColon
  /-- Line 92, `stackerr.Newf("missing header key")`. -/
  | MissingHeaderKey
  /-- Line 76, `d.ctx.Err()`. -/
  | Cancelled (err : CtxError)
deriving DecidableEq, Repr

/-- The format string each error is built from (for `Cancelled`, the text of the context
error). -/
def DecodeError.message : DecodeError → String
  | .EmptyLine => "empty line"
  | .MalformedLine => "every line should begin with '[' or '/'"
  | .UriParseError _ => "uri decode error: "
  | .MalformedHeaderLine => "header line should be like '[key: value]"
  | .MissingColon => "missing colon"
  | .MissingHeaderKey => "missing header key"
  | .Cancelled .Canceled => "context canceled"
  | .Cancelled .DeadlineExceeded => "context deadline exceeded"

/-- Modelled from the spec: `ammo.SimpleHTTP` of package `ammo`, whose source is not part of
this development. It is the request descriptor handed to the consumer: a request and a tag.
The zero value `SimpleHTTP{}` made by the pool has no request. -/
structure SimpleHTTP where
  req : Option Request := none
  tag : Bytes := []
deriving DecidableEq

/-- Modelled from the spec: `(*ammo.SimpleHTTP).Reset(req, tag)` of package `ammo`: the
descriptor is reset to represent `req` with label `tag`, whatever it held before. -/
def SimpleHTTP.Reset (_a : SimpleHTTP) (req : Request) (tag : Bytes) : SimpleHTTP :=
  { req := some req, tag := tag }

/-- The value a Go `int` of `bits` bits holds after an operation whose exact result is `x`:
two's complement wrap-around into the range from `-2^(bits-1)` to `2^(bits-1) - 1`. -/
def wrapInt (bits : Nat) (x : Int) : Int :=
  (x + ((2 ^ (bits - 1) : Nat) : Int)) % ((2 ^ bits : Nat) : Int) - ((2 ^ (bits - 1) : Nat) : Int)

/-- The struct `decoder`. `sink` is the send side of the outlet, recorded as the values sent on
it so far, oldest first. `ammoPool` holds the idle descriptors of the `sync.Pool`. The
context `ctx` is read only by the `select` of `decodeURI`; what the `select` sees of it is
part of `SelectEnv`. `ammoNum` is the Go `int` counter. `intBits` is not a field of the Go
struct: it records the size of `int` on the platform the program is built for, 32 or 64
bits, which fixes where `d.ammoNum++` wraps; no method writes it. -/
structure decoder where
  sink : List SimpleHTTP
  ammoNum : Int
  header : Header
  ammoPool : List SimpleHTTP
  intBits : Nat
deriving DecidableEq

/-- What the `select` statement of `decodeURI` meets at the moment it resolves.
`sinkReady`: the send `d.sink <- sh` can proceed (the consumer receives, or the buffer has
room). `ctxErr`: `some e` when `d.ctx.Done()` is closed, with `e = d.ctx.Err()`.
`pickSend`: the choice of the Go runtime when both cases can proceed, which the language
leaves to a uniform pseudo-random selection. When neither case can ever proceed the call
does not return. -/
structure SelectEnv where
  sinkReady : Bool
  ctxErr : Option CtxError
  pickSend : Bool
deriving DecidableEq, Repr

/-- How a call of `Decode` ends. -/
inductive Result
  /-- The call returned `nil`. -/
  | ok
  /-- The call returned a non-nil error. -/
  | err (e : DecodeError)
  /-- The call panicked (`v[0]` on an empty slice). -/
  | panic
  /-- The call never returns: the `select` blocks forever. -/
  | blocked
deriving DecidableEq, Repr

/-- Function `newDecoder` on a platform whose `int` has `bits` bits: empty header map,
count 0, nothing sent, empty pool. -/
def newDecoderOn (bits : Nat) : decoder :=
  { sink := [], ammoNum := 0, header := Header.empty, ammoPool := [], intBits := bits }

/-- Function `newDecoder` on a 64-bit platform. -/
def newDecoder : decoder := newDecoderOn 64

/-- Go `sync.Pool.Get` with `New` returning `&ammo.SimpleHTTP{}`: an idle descriptor when
there is one, a fresh one otherwise. -/
def poolGet (pool : List SimpleHTTP) : SimpleHTTP × List SimpleHTTP :=
  match pool with
  | [] => ({}, [])
  | sh :: rest => (sh, rest)

/-- One turn of the loop `for k, v := range d.header` of `decodeURI` (lines 60-68). `none`
is the panic of `v[0]` on an empty slice. -/
def mergeEntry (req : Request) (e : Bytes × List Bytes) : Option Request :=
  if e.1 = str "Host" then
    match e.2 with
    | [] => none
    | v0 :: _ => some { req with URL := { req.URL with Host := v0 }, Host := v0 }
  else some { req with Header := req.Header.assign e.1 e.2 }

/-- The loop `for k, v := range d.header` of `decodeURI`, over the entries of the map. -/
def mergeHeaders (entries : List (Bytes × List Bytes)) (req : Request) : Option Request :=
  match entries with
  | [] => some req
  | e :: rest =>
    match mergeEntry req e with
    | none => none
    | some req1 => mergeHeaders rest req1

/-- Method `decodeURI`. -/
def decodeURI (d : decoder) (env : SelectEnv) (line : Bytes) : decoder × Result :=
  match NewRequest (str "GET") line with
  | .error e => (d, .err (.UriParseError e))
  | .ok req0 =>
    match mergeHeaders d.header.entries req0 with
    | none => (d, .panic)
    | some req =>
      let got := poolGet d.ammoPool
      let sh := got.1.Reset req (str "REQUEST")
      let d1 := { d with ammoPool := got.2 }
      match env.ctxErr with
      | none =>
        if env.sinkReady then
          ({ d1 with sink := d1.sink ++ [sh],
                     ammoNum := wrapInt d1.intBits (d1.ammoNum + 1) }, .ok)
        else (d1, .blocked)
      | some e =>
        if env.sinkReady ∧ env.pickSend then
          ({ d1 with sink := d1.sink ++ [sh],
                     ammoNum := wrapInt d1.intBits (d1.ammoNum + 1) }, .ok)
        else (d1, .err (.Cancelled e))

/-- Method `decodeHeader`. -/
def decodeHeader (d : decoder) (line : Bytes) : decoder × Result :=
  if line.length < 3 ∨ line.getD 0 0 ≠ 91 ∨ line.getD (line.length - 1) 0 ≠ 93 then
    (d, .err .MalformedHeaderLine)
  else
    let line1 := slice line 1 (line.length - 1)
    let colonIdx := IndexByte line1 58
    if colonIdx < 0 then (d, .err .MissingColon)
    else
      let key := TrimSpace (line1.take colonIdx.toNat)
      let val := TrimSpace (line1.drop (colonIdx.toNat + 1))
      if key = [] then (d, .err .MissingHeaderKey)
      else ({ d with header := d.header.Set key val }, .ok)

/-- Method `Decode`. -/
def Decode (d : decoder) (env : SelectEnv) (line : Bytes) : decoder × Result :=
  if line.length = 0 then (d, .err .EmptyLine)
  else if line.getD 0 0 = 47 then decodeURI d env line
  else if line.getD 0 0 = 91 then decodeHeader d line
  else (d, .err .MalformedLine)

/-- Method `ResetHeader`: `for k := range d.header { delete(d.header, k) }`. -/
def ResetHeader (d : decoder) : decoder :=
  { d with header := d.header.entries.foldl (fun h e => h.delete e.1) d.header }

/-! ## Vocabulary of the specification -/

/-- The header line written `[k: v]` in the specification: an opening bracket, the key text
`k`, a colon, the value text `v`, a closing bracket. -/
def headerLine (k v : Bytes) : Bytes := [91] ++ k ++ [58] ++ v ++ [93]

/-- The text between the brackets of a header line. -/
def bracketText (line : Bytes) : Bytes := (line.drop 1).dropLast

/-- The text before the first byte `c` of `s` (all of `s` when there is none). -/
def beforeFirst (c : Nat) (s : Bytes) : Bytes := s.takeWhile (fun b => b != c)

/-- The text after the first byte `c` of `s` (empty when there is none). -/
def afterFirst (c : Nat) (s : Bytes) : Bytes := (s.dropWhile (fun b => b != c)).drop 1

/-- The caller's loop: the lines are handed to `Decode` one at a time, each with what its
`select` will meet. The caller goes on after an error return and stops where a call does
not return (panic, or blocked for ever). The results of the calls made are collected. -/
def DecodeAll (d : decoder) : List (SelectEnv × Bytes) → decoder × List Result
  | [] => (d, [])
  | c :: rest =>
    match Decode d c.1 c.2 with
    | (d1, .panic) => (d1, [.panic])
    | (d1, .blocked) => (d1, [.blocked])
    | (d1, r) => ((DecodeAll d1 rest).1, r :: (DecodeAll d1 rest).2)

/-- Every entry of the map holds exactly one value. -/
def SingleValued (h : Header) : Prop := ∀ e ∈ h.entries, ∃ v, e.2 = [v]

/-- ASCII lower case of a byte. -/
def asciiLower (c : Nat) : Nat := if isUpperAZ c then c + 32 else c

/-- Equality of two keys up to ASCII letter case. -/
def EqualFoldASCII (a b : Bytes) : Prop := a.map asciiLower = b.map asciiLower

/-- What a descriptor built from `line` looks like: the request that `http.NewRequest` makes
of the line, up to the header set and the two host fields that `decodeURI` fills in from
the header map, with the tag `REQUEST`. -/
def BuiltFrom (sh : SimpleHTTP) (line : Bytes) : Prop :=
  ∃ req0 req, NewRequest (str "GET") line = .ok req0 ∧ sh.req = some req ∧
    sh.tag = str "REQUEST" ∧
    { req with Header := req0.Header, Host := req0.Host,
               URL := { req.URL with Host := req0.URL.Host } } = req0

/-- The HeaderContext of the specification: at most one value per canonical header name. -/
abbrev HeaderContext := Bytes → Option Bytes

/-- The effect of an accepted header line on the HeaderContext of the specification: the
trimmed text after the first colon is stored under the canonical form of the trimmed text
before it, in place of any value stored there. -/
def storeHeader (ctx : HeaderContext) (line : Bytes) : HeaderContext :=
  fun k =>
    if k = CanonicalMIMEHeaderKey (TrimSpace (beforeFirst 58 (bracketText line))) then
      some (TrimSpace (afterFirst 58 (bracketText line)))
    else ctx k

/-- The deliveries the specification expects of a list of lines, in input order: one for each
URI line, with the HeaderContext that the header lines before it have accumulated. -/
def expectedDeliveries (ctx : HeaderContext) : List Bytes → List (HeaderContext × Bytes)
  | [] => []
  | line :: rest =>
    if line.head? = some 47 then (ctx, line) :: expectedDeliveries ctx rest
    else expectedDeliveries (storeHeader ctx line) rest

/-- The descriptor the specification expects for the URI line `line` under the HeaderContext
`ctx`: tag `REQUEST`, method `GET`, the URL parsed from the line, the header set holding
exactly the entries of `ctx` other than `Host`, each with its one value, and both host fields
equal to the `Host` entry of `ctx` when there is one, to the host parsed from the line
otherwise. -/
def DescriptorFor (ctx : HeaderContext) (line : Bytes) (sh : SimpleHTTP) : Prop :=
  ∃ req0 req, NewRequest (str "GET") line = .ok req0 ∧ sh = ⟨some req, str "REQUEST"⟩ ∧
    req.Method = str "GET" ∧ req.Proto = req0.Proto ∧ req.ProtoMajor = req0.ProtoMajor ∧
    req.ProtoMinor = req0.ProtoMinor ∧ { req.URL with Host := req0.URL.Host } = req0.URL ∧
    (∀ k, req.Header.lookup k = if k = str "Host" then none else (ctx k).map (fun v => [v])) ∧
    req.Host = (ctx (str "Host")).getD req0.Host ∧
    req.URL.Host = (ctx (str "Host")).getD req0.URL.Host

/-- The header map `h` of the decoder holds the HeaderContext `ctx`: under every key the one
value of `ctx`, and no entry where `ctx` has none. -/
def Holds (h : Header) (ctx : HeaderContext) : Prop :=
  ∀ k, h.lookup k = (ctx k).map (fun v => [v])

/-- The states a decoder can be in: made by `newDecoder` on a 32-bit or a 64-bit platform,
then used through `Decode` and `ResetHeader`, while the consumer hands descriptors back to
the pool (`sync.Pool.Put`). -/
inductive Reachable : decoder → Prop
  | fresh (bits : Nat) (hbits : bits = 32 ∨ bits = 64) : Reachable (newDecoderOn bits)
  | decode (d : decoder) (env : SelectEnv) (line : Bytes) :
      Reachable d → Reachable (Decode d env line).1
  | reset (d : decoder) : Reachable d → Reachable (ResetHeader d)
  | poolPut (d : decoder) (sh : SimpleHTTP) :
      Reachable d → Reachable { d with ammoPool := sh :: d.ammoPool }

/-! ## Lemmas on byte strings -/

theorem IndexByte_nonneg_or (s : Bytes) (c : Nat) : IndexByte s c = -1 ∨ 0 ≤ IndexByte s c := by
  induction s with
  | nil => simp [IndexByte]
  | cons b rest ih =>
    unfold IndexByte
    by_cases hb : b = c
    · simp [hb]
    · simp only [hb, if_false]
      rcases ih with h | h
      · simp [h]
      · right
        have : ¬ IndexByte rest c < 0 := by omega
        simp only [this, if_false]
        omega

theorem IndexByte_neg_iff (s : Bytes) (c : Nat) : IndexByte s c < 0 ↔ c ∉ s := by
  induction s with
  | nil => simp [IndexByte]
  | cons b rest ih =>
    unfold IndexByte
    by_cases hb : b = c
    · simp [hb]
    · simp only [hb, if_false, List.mem_cons]
      by_cases hi : IndexByte rest c < 0
      · have := ih.1 hi
        simp [hi, this, Ne.symm hb]
      · have hmem : ¬ c ∉ rest := fun h => hi (ih.2 h)
        simp only [hi, if_false]
        constructor
        · intro h; omega
        · intro h; exact absurd (fun h2 => h (Or.inr h2)) hmem

theorem beforeFirst_cons (c b : Nat) (rest : Bytes) :
    beforeFirst c (b :: rest) = if b = c then [] else b :: beforeFirst c rest := by
  by_cases hb : b = c <;> simp [beforeFirst, List.takeWhile_cons, hb]

theorem afterFirst_cons (c b : Nat) (rest : Bytes) :
    afterFirst c (b :: rest) = if b = c then rest else afterFirst c rest := by
  by_cases hb : b = c <;> simp [afterFirst, List.dropWhile_cons, hb]

theorem IndexByte_toNat (s : Bytes) (c : Nat) (h : c ∈ s) :
    (IndexByte s c).toNat = (beforeFirst c s).length := by
  induction s with
  | nil => simp at h
  | cons b rest ih =>
    unfold IndexByte
    rw [beforeFirst_cons]
    by_cases hb : b = c
    · simp [hb]
    · have hmem : c ∈ rest := by
        rcases List.mem_cons.1 h with h1 | h1
        · exact absurd h1.symm hb
        · exact h1
      have hi : ¬ IndexByte rest c < 0 := fun hlt => (IndexByte_neg_iff rest c).1 hlt hmem
      have h2 := ih hmem
      simp only [hb, if_false, hi, List.length_cons]
      omega

theorem take_IndexByte (s : Bytes) (c : Nat) (h : c ∈ s) :
    s.take (IndexByte s c).toNat = beforeFirst c s := by
  rw [IndexByte_toNat s c h]
  induction s with
  | nil => rfl
  | cons b rest ih =>
    rw [beforeFirst_cons]
    by_cases hb : b = c
    · simp [hb]
    · have hmem : c ∈ rest := by
        rcases List.mem_cons.1 h with h1 | h1
        · exact absurd h1.symm hb
        · exact h1
      simp only [hb, if_false, List.length_cons, List.take_succ_cons]
      rw [ih hmem]

theorem drop_IndexByte (s : Bytes) (c : Nat) (h : c ∈ s) :
    s.drop ((IndexByte s c).toNat + 1) = afterFirst c s := by
  rw [IndexByte_toNat s c h]
  induction s with
  | nil => rfl
  | cons b rest ih =>
    rw [beforeFirst_cons, afterFirst_cons]
    by_cases hb : b = c
    · simp [hb]
    · have hmem : c ∈ rest := by
        rcases List.mem_cons.1 h with h1 | h1
        · exact absurd h1.symm hb
        · exact h1
      simp only [hb, if_false, List.length_cons, List.drop_succ_cons]
      exact ih hmem

theorem beforeFirst_append_sep (k v : Bytes) (c : Nat) (h : c ∉ k) :
    beforeFirst c (k ++ c :: v) = k := by
  induction k with
  | nil => simp [beforeFirst_cons]
  | cons b rest ih =>
    have hb : b ≠ c := fun e => h (by simp [e])
    have hr : c ∉ rest := fun e => h (List.mem_cons_of_mem _ e)
    rw [List.cons_append, beforeFirst_cons]
    simp [hb, ih hr]

theorem afterFirst_append_sep (k v : Bytes) (c : Nat) (h : c ∉ k) :
    afterFirst c (k ++ c :: v) = v := by
  induction k with
  | nil => simp [afterFirst_cons]
  | cons b rest ih =>
    have hb : b ≠ c := fun e => h (by simp [e])
    have hr : c ∉ rest := fun e => h (List.mem_cons_of_mem _ e)
    rw [List.cons_append, afterFirst_cons]
    simp [hb, ih hr]

/-! ## Lemmas on the header map -/

theorem Header.lookup_assign_self (h : Header) (k : Bytes) (v : List Bytes) :
    (h.assign k v).lookup k = some v := by
  simp [Header.lookup, Header.assign]

theorem Header.lookup_assign_ne (h : Header) (k k2 : Bytes) (v : List Bytes) (hne : k2 ≠ k) :
    (h.assign k v).lookup k2 = h.lookup k2 := by
  have hfilter : ∀ l : List (Bytes × List Bytes),
      (l.filter (fun e => e.1 ≠ k)).find? (fun e => e.1 = k2) = l.find? (fun e => e.1 = k2) := by
    intro l
    rw [List.find?_filter]
    congr 1
    funext a
    by_cases h2 : a.1 = k2
    · have h1 : ¬ a.1 = k := fun h1 => hne (h2.symm.trans h1)
      simp [h2, hne]
    · simp [h2]
  simp only [Header.lookup, Header.assign]
  rw [List.find?_cons]
  have : ¬ k = k2 := fun e => hne e.symm
  simp only [this, decide_False]
  rw [hfilter]

theorem Header.assign_entries_filter (h : Header) (k : Bytes) (v : List Bytes) :
    (h.assign k v).entries.filter (fun e => e.1 = k) = [(k, v)] := by
  simp only [Header.assign]
  rw [List.filter_cons]
  simp only [decide_True, if_true, List.filter_filter]
  simp

theorem Header.lookup_eq_none_of_not_mem (h : Header) (k : Bytes)
    (hk : ∀ e ∈ h.entries, e.1 ≠ k) : h.lookup k = none := by
  simp only [Header.lookup, Option.map_eq_none']
  rw [List.find?_eq_none]
  intro e he
  simpa using hk e he

theorem Header.lookup_of_mem (h : Header) (e : Bytes × List Bytes) (he : e ∈ h.entries) :
    h.lookup e.1 = some e.2 := by
  obtain ⟨entries, nodup⟩ := h
  simp only [Header.lookup]
  simp only at he
  induction entries with
  | nil => simp at he
  | cons a rest ih =>
    rw [List.map_cons, List.nodup_cons] at nodup
    rcases List.mem_cons.1 he with h1 | h1
    · subst h1; simp
    · have hne : a.1 ≠ e.1 := fun heq => nodup.1 (heq ▸ List.mem_map_of_mem Prod.fst h1)
      rw [List.find?_cons]
      simp only [hne, decide_False]
      exact ih nodup.2 h1

/-! ## Lemmas on the merge loop of `decodeURI` -/

theorem mergeEntry_frame (req req1 : Request) (e : Bytes × List Bytes)
    (h : mergeEntry req e = some req1) :
    req1.Method = req.Method ∧ req1.Proto = req.Proto ∧ req1.ProtoMajor = req.ProtoMajor ∧
      req1.ProtoMinor = req.ProtoMinor ∧
      { req1.URL with Host := req.URL.Host } = req.URL := by
  unfold mergeEntry at h
  split at h
  · split at h
    · exact absurd h (by simp)
    · cases h; simp
  · cases h; simp

theorem mergeHeaders_frame (entries : List (Bytes × List Bytes)) (req req1 : Request)
    (h : mergeHeaders entries req = some req1) :
    req1.Method = req.Method ∧ req1.Proto = req.Proto ∧ req1.ProtoMajor = req.ProtoMajor ∧
      req1.ProtoMinor = req.ProtoMinor ∧
      { req1.URL with Host := req.URL.Host } = req.URL := by
  induction entries generalizing req with
  | nil => simp only [mergeHeaders] at h; cases h; simp
  | cons e rest ih =>
    simp only [mergeHeaders] at h
    cases hm : mergeEntry req e with
    | none => rw [hm] at h; exact absurd h (by simp)
    | some r =>
      rw [hm] at h
      have h1 := mergeEntry_frame req r e hm
      have h2 := ih r h
      refine ⟨h2.1.trans h1.1, h2.2.1.trans h1.2.1, h2.2.2.1.trans h1.2.2.1,
        h2.2.2.2.1.trans h1.2.2.2.1, ?_⟩
      rw [← h1.2.2.2.2, ← h2.2.2.2.2]

theorem mergeHeaders_lookup (entries : List (Bytes × List Bytes)) (req req1 : Request)
    (hn : (entries.map Prod.fst).Nodup) (h : mergeHeaders entries req = some req1)
    (k : Bytes) (hk : k ≠ str "Host") :
    req1.Header.lookup k =
      match (entries.find? (fun e => e.1 = k)).map Prod.snd with
      | some v => some v
      | none => req.Header.lookup k := by
  induction entries generalizing req with
  | nil => simp only [mergeHeaders] at h; cases h; simp
  | cons e rest ih =>
    rw [List.map_cons, List.nodup_cons] at hn
    simp only [mergeHeaders] at h
    cases hm : mergeEntry req e with
    | none => rw [hm] at h; exact absurd h (by simp)
    | some r =>
      rw [hm] at h
      have h2 := ih r hn.2 h
      rw [h2, List.find?_cons]
      by_cases hek : e.1 = k
      · have hnone : rest.find? (fun e => e.1 = k) = none := by
          rw [List.find?_eq_none]
          intro x hx hxk
          exact hn.1 (by
            have : x.1 = e.1 := (of_decide_eq_true hxk).trans hek.symm
            exact this ▸ List.mem_map_of_mem Prod.fst hx)
        have hhost : ¬ e.1 = str "Host" := fun h3 => hk (hek.symm.trans h3)
        simp only [hnone, hek, decide_True, Option.map_none', Option.map_some']
        unfold mergeEntry at hm
        simp only [hhost, if_false, Option.some.injEq] at hm
        rw [← hm, ← hek]
        exact Header.lookup_assign_self _ _ _
      · simp only [hek, decide_False]
        have hr : r.Header.lookup k = req.Header.lookup k := by
          unfold mergeEntry at hm
          split at hm
          · split at hm
            · exact absurd hm (by simp)
            · cases hm; rfl
          · cases hm
            exact Header.lookup_assign_ne _ _ _ _ (fun h3 => hek h3.symm)
        rw [hr]

theorem mergeHeaders_lookup_Host (entries : List (Bytes × List Bytes)) (req req1 : Request)
    (h : mergeHeaders entries req = some req1) :
    req1.Header.lookup (str "Host") = req.Header.lookup (str "Host") := by
  induction entries generalizing req with
  | nil => simp only [mergeHeaders] at h; cases h; rfl
  | cons e rest ih =>
    simp only [mergeHeaders] at h
    cases hm : mergeEntry req e with
    | none => rw [hm] at h; exact absurd h (by simp)
    | some r =>
      rw [hm] at h
      rw [ih r h]
      unfold mergeEntry at hm
      split at hm
      · split at hm
        · exact absurd hm (by simp)
        · cases hm; rfl
      · rename_i hne
        cases hm
        exact Header.lookup_assign_ne _ _ _ _ (fun h3 => hne h3.symm)

theorem mergeHeaders_host_none (entries : List (Bytes × List Bytes)) (req req1 : Request)
    (h : mergeHeaders entries req = some req1)
    (hno : ∀ e ∈ entries, e.1 ≠ str "Host") :
    req1.Host = req.Host ∧ req1.URL.Host = req.URL.Host := by
  induction entries generalizing req with
  | nil => simp only [mergeHeaders] at h; cases h; exact ⟨rfl, rfl⟩
  | cons e rest ih =>
    simp only [mergeHeaders] at h
    cases hm : mergeEntry req e with
    | none => rw [hm] at h; exact absurd h (by simp)
    | some r =>
      rw [hm] at h
      have h2 := ih r h (fun x hx => hno x (List.mem_cons_of_mem _ hx))
      have hne : ¬ e.1 = str "Host" := hno e (List.mem_cons_self _ _)
      unfold mergeEntry at hm
      simp only [hne, if_false, Option.some.injEq] at hm
      rw [h2.1, h2.2, ← hm]
      exact ⟨rfl, rfl⟩

theorem mergeHeaders_host_some (entries : List (Bytes × List Bytes)) (req req1 : Request)
    (hn : (entries.map Prod.fst).Nodup) (h : mergeHeaders entries req = some req1)
    (v : List Bytes) (hv : (str "Host", v) ∈ entries) :
    ∃ v0 rest, v = v0 :: rest ∧ req1.Host = v0 ∧ req1.URL.Host = v0 := by
  induction entries generalizing req with
  | nil => simp at hv
  | cons e rest ih =>
    rw [List.map_cons, List.nodup_cons] at hn
    simp only [mergeHeaders] at h
    cases hm : mergeEntry req e with
    | none => rw [hm] at h; exact absurd h (by simp)
    | some r =>
      rw [hm] at h
      rcases List.mem_cons.1 hv with h1 | h1
      · subst h1
        have hno : ∀ x ∈ rest, x.1 ≠ str "Host" := fun x hx hxk => hn.1 (by
          have hmem := List.mem_map_of_mem Prod.fst hx
          rw [hxk] at hmem
          exact hmem)
        have h2 := mergeHeaders_host_none rest r req1 h hno
        unfold mergeEntry at hm
        simp only [if_true] at hm
        cases v with
        | nil => simp at hm
        | cons v0 vs =>
          simp only [Option.some.injEq] at hm
          refine ⟨v0, vs, rfl, ?_, ?_⟩
          · rw [h2.1, ← hm]
          · rw [h2.2, ← hm]
      · exact ih r hn.2 h h1

theorem mergeHeaders_isSome (entries : List (Bytes × List Bytes)) (req : Request)
    (hs : ∀ e ∈ entries, ∃ v, e.2 = [v]) : ∃ req1, mergeHeaders entries req = some req1 := by
  induction entries generalizing req with
  | nil => exact ⟨req, rfl⟩
  | cons e rest ih =>
    obtain ⟨v, hv⟩ := hs e (List.mem_cons_self _ _)
    have hm : ∃ r, mergeEntry req e = some r := by
      unfold mergeEntry
      split
      · rw [hv]; exact ⟨_, rfl⟩
      · exact ⟨_, rfl⟩
    obtain ⟨r, hr⟩ := hm
    obtain ⟨r1, hr1⟩ := ih r (fun x hx => hs x (List.mem_cons_of_mem _ hx))
    exact ⟨r1, by simp only [mergeHeaders, hr, hr1]⟩

/-! ## Lemmas on `decodeHeader`, `decodeURI` and `Decode` -/

theorem slice_eq_bracketText (line : Bytes) :
    slice line 1 (line.length - 1) = bracketText line := by
  simp only [slice, bracketText, List.dropLast_eq_take, List.drop_take, List.length_drop]

theorem getD_last (line : Bytes) (h : line ≠ []) :
    line.getLast? = some (line.getD (line.length - 1) 0) := by
  have hlen : line.length - 1 < line.length := by
    have := List.length_pos.2 h
    omega
  rw [List.getLast?_eq_getElem?, List.getD_eq_getElem?_getD, List.getElem?_eq_getElem hlen]
  rfl

theorem decodeHeader_eq (d : decoder) (line : Bytes) (h0 : line.head? = some 91) :
    decodeHeader d line =
      if line.length < 3 ∨ line.getLast? ≠ some 93 then (d, .err .MalformedHeaderLine)
      else if 58 ∉ bracketText line then (d, .err .MissingColon)
      else if TrimSpace (beforeFirst 58 (bracketText line)) = [] then
        (d, .err .MissingHeaderKey)
      else
        ({ d with header := d.header.Set (TrimSpace (beforeFirst 58 (bracketText line)))
                              (TrimSpace (afterFirst 58 (bracketText line))) }, .ok) := by
  cases line with
  | nil => simp at h0
  | cons c rest =>
    have hc : c = 91 := by simpa using h0
    subst hc
    have hlast := getD_last (91 :: rest) (by simp)
    unfold decodeHeader
    rw [slice_eq_bracketText, hlast]
    have hget0 : (91 :: rest).getD 0 0 = 91 := rfl
    simp only [hget0, ne_eq, not_true_eq_false, false_or, Option.some.injEq]
    by_cases h1 : (91 :: rest).length < 3 ∨ ¬ (91 :: rest).getD ((91 :: rest).length - 1) 0 = 93
    · simp only [h1, if_true]
    · simp only [h1, if_false]
      by_cases h2 : 58 ∈ bracketText (91 :: rest)
      · have hi : ¬ IndexByte (bracketText (91 :: rest)) 58 < 0 := fun hlt =>
          (IndexByte_neg_iff _ _).1 hlt h2
        simp only [hi, if_false, h2, not_true_eq_false, take_IndexByte _ _ h2,
          drop_IndexByte _ _ h2]
      · have hi : IndexByte (bracketText (91 :: rest)) 58 < 0 := (IndexByte_neg_iff _ _).2 h2
        simp only [hi, if_true, h2, not_false_eq_true]

theorem bracketText_headerLine (k v : Bytes) : bracketText (headerLine k v) = k ++ 58 :: v := by
  have h : headerLine k v = 91 :: ((k ++ 58 :: v) ++ [93]) := by simp [headerLine]
  rw [h, bracketText, List.drop_one, List.tail_cons, List.dropLast_concat]

theorem decodeHeader_headerLine (d : decoder) (k v : Bytes) (hk : 58 ∉ k) :
    decodeHeader d (headerLine k v) =
      if TrimSpace k = [] then (d, .err .MissingHeaderKey)
      else ({ d with header := d.header.Set (TrimSpace k) (TrimSpace v) }, .ok) := by
  have h0 : (headerLine k v).head? = some 91 := by simp [headerLine]
  rw [decodeHeader_eq d _ h0, bracketText_headerLine, beforeFirst_append_sep k v 58 hk,
    afterFirst_append_sep k v 58 hk]
  have hlen : ¬ (headerLine k v).length < 3 := by simp [headerLine]; omega
  have hlast : (headerLine k v).getLast? = some 93 := by
    have h : headerLine k v = ([91] ++ k ++ [58] ++ v) ++ [93] := rfl
    rw [h, List.getLast?_append]
    rfl
  have hmem : 58 ∈ k ++ 58 :: v := by simp
  simp [hlen, hlast, hmem]

theorem Decode_headerLine (d : decoder) (env : SelectEnv) (k v : Bytes) :
    Decode d env (headerLine k v) = decodeHeader d (headerLine k v) := by
  simp [Decode, headerLine]

theorem Decode_uri (d : decoder) (env : SelectEnv) (line : Bytes) (h : line.head? = some 47) :
    Decode d env line = decodeURI d env line := by
  cases line with
  | nil => simp at h
  | cons c rest =>
    have hc : c = 47 := by simpa using h
    subst hc
    simp [Decode]

theorem decodeURI_header (d : decoder) (env : SelectEnv) (line : Bytes) :
    (decodeURI d env line).1.header = d.header := by
  unfold decodeURI
  split
  · rfl
  · split
    · rfl
    · split <;> split <;> rfl

theorem decodeURI_ok (d d1 : decoder) (env : SelectEnv) (line : Bytes)
    (h : decodeURI d env line = (d1, .ok)) :
    ∃ req0 req, NewRequest (str "GET") line = .ok req0 ∧
      mergeHeaders d.header.entries req0 = some req ∧
      d1 = { d with ammoPool := (poolGet d.ammoPool).2,
                    sink := d.sink ++ [⟨some req, str "REQUEST"⟩],
                    ammoNum := wrapInt d.intBits (d.ammoNum + 1) } ∧
      env.sinkReady = true ∧ (env.ctxErr = none ∨ env.pickSend = true) := by
  unfold decodeURI at h
  split at h
  · simp at h
  · rename_i req0 hreq
    split at h
    · simp at h
    · rename_i req hm
      refine ⟨req0, req, hreq, hm, ?_⟩
      split at h
      · split at h
        · rename_i hc hs
          simp only [Prod.mk.injEq, and_true] at h
          exact ⟨h.symm, hs, Or.inl hc⟩
        · simp at h
      · split at h
        · rename_i hs
          simp only [Prod.mk.injEq, and_true] at h
          exact ⟨h.symm, hs.1, Or.inr hs.2⟩
        · simp at h

theorem decodeURI_err (d d1 : decoder) (env : SelectEnv) (line : Bytes) (e : DecodeError)
    (h : decodeURI d env line = (d1, .err e)) :
    d1.header = d.header ∧ d1.sink = d.sink ∧ d1.ammoNum = d.ammoNum := by
  unfold decodeURI at h
  split at h
  · simp only [Prod.mk.injEq] at h
    rw [← h.1]; exact ⟨rfl, rfl, rfl⟩
  · split at h
    · simp at h
    · split at h
      · split at h
        · simp at h
        · simp at h
      · split at h
        · simp at h
        · simp only [Prod.mk.injEq] at h
          rw [← h.1]; exact ⟨rfl, rfl, rfl⟩

theorem decodeHeader_err (d d1 : decoder) (line : Bytes) (e : DecodeError)
    (h : decodeHeader d line = (d1, .err e)) : d1 = d := by
  unfold decodeHeader at h
  split at h
  · simp only [Prod.mk.injEq] at h; exact h.1.symm
  · simp only at h
    split at h
    · simp only [Prod.mk.injEq] at h; exact h.1.symm
    · split at h
      · simp only [Prod.mk.injEq] at h; exact h.1.symm
      · simp at h

theorem NewRequest_ok (method line : Bytes) (req0 : Request)
    (h : NewRequest method line = .ok req0) :
    req0.Header = Header.empty ∧ req0.Host = req0.URL.Host := by
  unfold NewRequest at h
  simp only at h
  generalize (if method = [] then str "GET" else method) = m at h
  split at h
  · simp at h
  · split at h
    · simp at h
    · simp only [Except.ok.injEq] at h
      rw [← h]
      exact ⟨rfl, rfl⟩

theorem Header.lookup_empty (k : Bytes) : Header.empty.lookup k = none := rfl

/-- What `decodeURI` puts on the outlet: the header set is the header map without `Host`, and
a `Host` entry of the map becomes both host fields. -/
theorem mergeHeaders_fresh (h : Header) (method line : Bytes) (req0 req : Request)
    (hreq : NewRequest method line = .ok req0)
    (hm : mergeHeaders h.entries req0 = some req) :
    (∀ k, req.Header.lookup k = if k = str "Host" then none else h.lookup k) ∧
      (∀ v, h.lookup (str "Host") = some v →
        ∃ v0 rest, v = v0 :: rest ∧ req.Host = v0 ∧ req.URL.Host = v0) := by
  have h0 := NewRequest_ok method line req0 hreq
  constructor
  · intro k
    by_cases hk : k = str "Host"
    · rw [if_pos hk, hk, mergeHeaders_lookup_Host h.entries req0 req hm, h0.1]
      rfl
    · rw [if_neg hk, mergeHeaders_lookup h.entries req0 req h.nodupKeys hm k hk, h0.1]
      show (match h.lookup k with
        | some v => some v
        | none => Header.empty.lookup k) = h.lookup k
      cases h.lookup k <;> rfl
  · intro v hv
    have hmem : (str "Host", v) ∈ h.entries := by
      simp only [Header.lookup, Option.map_eq_some'] at hv
      obtain ⟨e, he, hev⟩ := hv
      have h1 := List.find?_some he
      have h2 := List.mem_of_find?_eq_some he
      have h3 : e.1 = str "Host" := of_decide_eq_true h1
      have : e = (str "Host", v) := Prod.ext h3 hev
      rw [← this]; exact h2
    exact mergeHeaders_host_some h.entries req0 req h.nodupKeys hm v hmem

theorem CanonicalMIMEHeaderKey_nil : CanonicalMIMEHeaderKey [] = [] := rfl

/-! ## Invariant: one value per key -/

theorem SingleValued_empty : SingleValued Header.empty := by
  intro e he
  simp [Header.empty] at he

theorem SingleValued_Set (h : Header) (k v : Bytes) (hs : SingleValued h) :
    SingleValued (h.Set k v) := by
  intro e he
  simp only [Header.Set, Header.assign, List.mem_cons] at he
  rcases he with h1 | h1
  · exact ⟨v, by rw [h1]⟩
  · exact hs e (List.mem_filter.1 h1).1

theorem SingleValued_delete (h : Header) (k : Bytes) (hs : SingleValued h) :
    SingleValued (h.delete k) := by
  intro e he
  exact hs e (List.mem_filter.1 he).1

theorem SingleValued_foldl_delete (l : List (Bytes × List Bytes)) (h : Header)
    (hs : SingleValued h) : SingleValued (l.foldl (fun h e => h.delete e.1) h) := by
  induction l generalizing h with
  | nil => exact hs
  | cons a rest ih => exact ih _ (SingleValued_delete h a.1 hs)

theorem decodeHeader_header (d : decoder) (line : Bytes) :
    (decodeHeader d line).1.header = d.header ∨
      ∃ k v, (decodeHeader d line).1.header = d.header.Set k v := by
  unfold decodeHeader
  split
  · exact Or.inl rfl
  · simp only
    split
    · exact Or.inl rfl
    · split
      · exact Or.inl rfl
      · exact Or.inr ⟨_, _, rfl⟩

theorem Decode_eq (d : decoder) (env : SelectEnv) (line : Bytes) :
    Decode d env line =
      match line with
      | [] => (d, .err .EmptyLine)
      | c :: _ =>
        if c = 47 then decodeURI d env line
        else if c = 91 then decodeHeader d line
        else (d, .err .MalformedLine) := by
  cases line with
  | nil => rfl
  | cons c rest => simp [Decode]

theorem Decode_SingleValued (d : decoder) (env : SelectEnv) (line : Bytes)
    (hs : SingleValued d.header) : SingleValued (Decode d env line).1.header := by
  rw [Decode_eq]
  cases line with
  | nil => exact hs
  | cons c rest =>
    simp only
    split
    · rw [decodeURI_header]; exact hs
    · split
      · rcases decodeHeader_header d (c :: rest) with h | ⟨k, v, h⟩
        · rw [h]; exact hs
        · rw [h]; exact SingleValued_Set _ _ _ hs
      · exact hs

theorem Reachable_newDecoder : Reachable newDecoder := Reachable.fresh 64 (Or.inr rfl)

theorem Reachable_SingleValued (d : decoder) (hr : Reachable d) : SingleValued d.header := by
  induction hr with
  | fresh bits _ => exact SingleValued_empty
  | decode d env line _ ih => exact Decode_SingleValued d env line ih
  | reset d _ ih => exact SingleValued_foldl_delete _ _ ih
  | poolPut d sh _ ih => exact ih

/-! ## The caller's loop -/

theorem DecodeAll_cons (d : decoder) (c : SelectEnv × Bytes) (rest : List (SelectEnv × Bytes)) :
    DecodeAll d (c :: rest) =
      if (Decode d c.1 c.2).2 = .panic ∨ (Decode d c.1 c.2).2 = .blocked then
        ((Decode d c.1 c.2).1, [(Decode d c.1 c.2).2])
      else
        ((DecodeAll (Decode d c.1 c.2).1 rest).1,
          (Decode d c.1 c.2).2 :: (DecodeAll (Decode d c.1 c.2).1 rest).2) := by
  rw [DecodeAll]
  rcases hD : Decode d c.1 c.2 with ⟨d1, r⟩
  cases r <;> simp

/-- Every way a call of `decodeURI` can end: it sends one descriptor and counts it, or it
leaves outlet, count and header map alone. -/
theorem decodeURI_cases (d : decoder) (env : SelectEnv) (line : Bytes) :
    ((decodeURI d env line).2 = .ok ∧
        ∃ req0 req, NewRequest (str "GET") line = .ok req0 ∧
          mergeHeaders d.header.entries req0 = some req ∧
          (decodeURI d env line).1.sink = d.sink ++ [⟨some req, str "REQUEST"⟩] ∧
          (decodeURI d env line).1.ammoNum = wrapInt d.intBits (d.ammoNum + 1)) ∨
      ((decodeURI d env line).2 ≠ .ok ∧ (decodeURI d env line).1.sink = d.sink ∧
        (decodeURI d env line).1.ammoNum = d.ammoNum) := by
  rcases hD : decodeURI d env line with ⟨d1, r⟩
  by_cases hr : r = .ok
  · subst hr
    left
    obtain ⟨req0, req, h1, h2, h3, _, _⟩ := decodeURI_ok d d1 env line hD
    refine ⟨rfl, req0, req, h1, h2, ?_, ?_⟩ <;> rw [h3]
  · right
    refine ⟨hr, ?_⟩
    unfold decodeURI at hD
    split at hD
    · simp only [Prod.mk.injEq] at hD; rw [← hD.1]; exact ⟨rfl, rfl⟩
    · split at hD
      · simp only [Prod.mk.injEq] at hD; rw [← hD.1]; exact ⟨rfl, rfl⟩
      · split at hD
        · split at hD
          · simp only [Prod.mk.injEq] at hD; exact absurd hD.2.symm hr
          · simp only [Prod.mk.injEq] at hD; rw [← hD.1]; exact ⟨rfl, rfl⟩
        · split at hD
          · simp only [Prod.mk.injEq] at hD; exact absurd hD.2.symm hr
          · simp only [Prod.mk.injEq] at hD; rw [← hD.1]; exact ⟨rfl, rfl⟩

theorem decodeHeader_result_indep (d d0 : decoder) (line : Bytes) :
    (decodeHeader d line).2 = (decodeHeader d0 line).2 := by
  unfold decodeHeader
  split
  · rfl
  · simp only
    split
    · rfl
    · split <;> rfl

theorem decodeHeader_ok (d : decoder) (line : Bytes) (h : (decodeHeader d line).2 = .ok) :
    ∃ k v, decodeHeader d line = ({ d with header := d.header.Set k v }, .ok) := by
  unfold decodeHeader at h ⊢
  split
  · rename_i hc; rw [if_pos hc] at h; simp at h
  · rename_i hc
    rw [if_neg hc] at h
    simp only at h ⊢
    split
    · rename_i hc2; rw [if_pos hc2] at h; simp at h
    · rename_i hc2
      rw [if_neg hc2] at h
      split
      · rename_i hc3; rw [if_pos hc3] at h; simp at h
      · exact ⟨_, _, rfl⟩

theorem Decode_header (d : decoder) (env : SelectEnv) (line : Bytes)
    (h : line.head? = some 91) : Decode d env line = decodeHeader d line := by
  cases line with
  | nil => simp at h
  | cons c rest =>
    have hc : c = 91 := by simpa using h
    subst hc
    simp [Decode]

theorem BuiltFrom_of_merge (entries : List (Bytes × List Bytes)) (line : Bytes)
    (req0 req : Request) (hreq : NewRequest (str "GET") line = .ok req0)
    (hm : mergeHeaders entries req0 = some req) :
    BuiltFrom ⟨some req, str "REQUEST"⟩ line := by
  refine ⟨req0, req, hreq, rfl, rfl, ?_⟩
  obtain ⟨h1, h2, h3, h4, h5⟩ := mergeHeaders_frame entries req0 req hm
  cases req0
  cases req
  simp only at h1 h2 h3 h4 h5
  simp only [h1, h2, h3, h4, h5]

theorem decodeHeader_result (d : decoder) (line : Bytes) :
    (decodeHeader d line).2 = .err .MalformedHeaderLine ∨
      (decodeHeader d line).2 = .err .MissingColon ∨
      (decodeHeader d line).2 = .err .MissingHeaderKey ∨ (decodeHeader d line).2 = .ok := by
  unfold decodeHeader
  split
  · exact Or.inl rfl
  · simp only
    split
    · exact Or.inr (Or.inl rfl)
    · split
      · exact Or.inr (Or.inr (Or.inl rfl))
      · exact Or.inr (Or.inr (Or.inr rfl))

theorem decodeURI_result (d : decoder) (env : SelectEnv) (line : Bytes) :
    (∃ e, (decodeURI d env line).2 = .err (.UriParseError e)) ∨
      (∃ e, (decodeURI d env line).2 = .err (.Cancelled e)) ∨
      (decodeURI d env line).2 = .panic ∨ (decodeURI d env line).2 = .blocked ∨
      (decodeURI d env line).2 = .ok := by
  unfold decodeURI
  split
  · exact Or.inl ⟨_, rfl⟩
  · split
    · exact Or.inr (Or.inr (Or.inl rfl))
    · split
      · split
        · exact Or.inr (Or.inr (Or.inr (Or.inr rfl)))
        · exact Or.inr (Or.inr (Or.inr (Or.inl rfl)))
      · split
        · exact Or.inr (Or.inr (Or.inr (Or.inr rfl)))
        · exact Or.inr (Or.inl ⟨_, rfl⟩)

/-! ## Canonical keys -/

theorem canonLoop_congr (upper : Bool) (a b : Bytes)
    (h : a.map asciiLower = b.map asciiLower) : canonLoop upper a = canonLoop upper b := by
  induction a generalizing b upper with
  | nil =>
    cases b with
    | nil => rfl
    | cons _ _ => simp at h
  | cons c1 r1 ih =>
    cases b with
    | nil => simp at h
    | cons c2 r2 =>
      simp only [List.map_cons, List.cons.injEq] at h
      obtain ⟨hc, hr⟩ := h
      have hhead :
          (if upper = true ∧ isLowerAZ c1 = true then c1 - toLower
            else if ¬ upper = true ∧ isUpperAZ c1 = true then c1 + toLower else c1) =
          (if upper = true ∧ isLowerAZ c2 = true then c2 - toLower
            else if ¬ upper = true ∧ isUpperAZ c2 = true then c2 + toLower else c2) := by
        simp only [asciiLower, isUpperAZ, isLowerAZ, toLower, decide_eq_true_eq] at hc ⊢
        cases upper <;> simp only [Bool.false_eq_true, false_and, true_and, not_false_eq_true,
          not_true_eq_false, if_false] <;> split_ifs at hc ⊢ <;> omega
      simp only [canonLoop]
      rw [hhead, ih _ r2 hr]

theorem validHeaderFieldByte_asciiLower (b : Nat) :
    validHeaderFieldByte (asciiLower b) = validHeaderFieldByte b := by
  by_cases hu : 65 ≤ b ∧ b ≤ 90
  · have h1 : validHeaderFieldByte b = true := by
      simp only [validHeaderFieldByte, decide_eq_true_eq]
      omega
    have h2 : validHeaderFieldByte (asciiLower b) = true := by
      simp only [validHeaderFieldByte, asciiLower, isUpperAZ, hu, and_self, decide_True,
        if_true, decide_eq_true_eq]
      omega
    rw [h1, h2]
  · simp [asciiLower, isUpperAZ, hu]

theorem all_valid_of_fold (a b : Bytes) (h : a.map asciiLower = b.map asciiLower)
    (ha : a.all validHeaderFieldByte = true) : b.all validHeaderFieldByte = true := by
  induction a generalizing b with
  | nil =>
    cases b with
    | nil => rfl
    | cons _ _ => simp at h
  | cons c1 r1 ih =>
    cases b with
    | nil => simp at h
    | cons c2 r2 =>
      simp only [List.map_cons, List.cons.injEq] at h
      simp only [List.all_cons, Bool.and_eq_true] at ha ⊢
      refine ⟨?_, ih r2 h.2 ha.2⟩
      rw [← validHeaderFieldByte_asciiLower, ← h.1, validHeaderFieldByte_asciiLower]
      exact ha.1

theorem canonScan_eq (s pre rest : Bytes) (upper : Bool) (hs : s = pre ++ rest)
    (hv : s.all validHeaderFieldByte = true)
    (hpre : canonLoop true s = pre ++ canonLoop upper rest) :
    canonScan s upper rest = canonLoop true s := by
  induction rest generalizing pre upper with
  | nil =>
    simp only [canonScan]
    rw [hpre, hs]
    simp [canonLoop]
  | cons c r ih =>
    have hc : validHeaderFieldByte c = true := by
      rw [hs, List.all_append, Bool.and_eq_true] at hv
      have := hv.2
      simp only [List.all_cons, Bool.and_eq_true] at this
      exact this.1
    have hcan : canonicalMIMEHeaderKey s = canonLoop true s := by
      simp only [canonicalMIMEHeaderKey, hv, if_true]
    have hnc : ¬ ¬ validHeaderFieldByte c = true := fun h => h hc
    rw [canonScan, if_neg hnc]
    by_cases h1 : upper = true ∧ isLowerAZ c = true
    · rw [if_pos h1, hcan]
    · rw [if_neg h1]
      by_cases h2 : ¬ upper = true ∧ isUpperAZ c = true
      · rw [if_pos h2, hcan]
      · rw [if_neg h2]
        apply ih (pre ++ [c]) (decide (c = 45))
        · rw [hs]; simp
        · rw [hpre, canonLoop]
          simp only [h1, h2, if_false, List.append_assoc, List.singleton_append]

theorem CanonicalMIMEHeaderKey_valid (s : Bytes) (hv : s.all validHeaderFieldByte = true) :
    CanonicalMIMEHeaderKey s = canonLoop true s :=
  canonScan_eq s [] s true rfl hv rfl

theorem CanonicalMIMEHeaderKey_fold (a b : Bytes) (h : EqualFoldASCII a b)
    (ha : a.all validHeaderFieldByte = true) :
    CanonicalMIMEHeaderKey a = CanonicalMIMEHeaderKey b := by
  rw [CanonicalMIMEHeaderKey_valid a ha,
    CanonicalMIMEHeaderKey_valid b (all_valid_of_fold a b h ha)]
  exact canonLoop_congr true a b h

theorem Decode_err_frame (d : decoder) (env : SelectEnv) (line : Bytes) (e : DecodeError)
    (h : (Decode d env line).2 = .err e) :
    (Decode d env line).1.header = d.header ∧ (Decode d env line).1.sink = d.sink ∧
      (Decode d env line).1.ammoNum = d.ammoNum := by
  rw [Decode_eq] at h ⊢
  cases line with
  | nil => exact ⟨rfl, rfl, rfl⟩
  | cons c rest =>
    simp only at h ⊢
    split
    · rename_i hc
      rw [if_pos hc] at h
      exact decodeURI_err d _ env _ e (Prod.ext rfl h)
    · rename_i hc
      rw [if_neg hc] at h
      split
      · rename_i hc2
        rw [if_pos hc2] at h
        have hd : (decodeHeader d (c :: rest)).1 = d :=
          decodeHeader_err d (decodeHeader d (c :: rest)).1 (c :: rest) e (Prod.ext rfl h)
        rw [hd]
        exact ⟨rfl, rfl, rfl⟩
      · exact ⟨rfl, rfl, rfl⟩

/-- A run of calls that all return an error leaves header map, outlet and count alone. -/
theorem DecodeAll_all_err (calls : List (SelectEnv × Bytes)) (d : decoder)
    (h : ∀ r ∈ (DecodeAll d calls).2, ∃ e, r = Result.err e) :
    (DecodeAll d calls).1.header = d.header ∧ (DecodeAll d calls).1.sink = d.sink ∧
      (DecodeAll d calls).1.ammoNum = d.ammoNum := by
  induction calls generalizing d with
  | nil => exact ⟨rfl, rfl, rfl⟩
  | cons c rest ih =>
    rw [DecodeAll_cons] at h ⊢
    obtain ⟨e, he⟩ : ∃ e, (Decode d c.1 c.2).2 = Result.err e := by
      split at h
      · exact h _ (List.mem_cons_self _ _)
      · exact h _ (List.mem_cons_self _ _)
    have hne : ¬ ((Decode d c.1 c.2).2 = .panic ∨ (Decode d c.1 c.2).2 = .blocked) := by
      rw [he]; simp
    rw [if_neg hne] at h ⊢
    obtain ⟨f1, f2, f3⟩ := Decode_err_frame d c.1 c.2 e he
    obtain ⟨g1, g2, g3⟩ := ih (Decode d c.1 c.2).1 (fun r hr => h r (List.mem_cons_of_mem _ hr))
    exact ⟨g1.trans f1, g2.trans f2, g3.trans f3⟩

/-! ## Lemmas on `ResetHeader` -/

theorem foldl_delete_entries (l : List (Bytes × List Bytes)) (h : Header) :
    (l.foldl (fun h e => h.delete e.1) h).entries
      = h.entries.filter (fun e => decide (e.1 ∉ l.map Prod.fst)) := by
  induction l generalizing h with
  | nil => simp
  | cons a rest ih =>
    rw [List.foldl_cons, ih]
    simp only [Header.delete, List.filter_filter, List.map_cons, List.mem_cons, not_or]
    congr 1
    funext e
    by_cases h1 : e.1 = a.1 <;> by_cases h2 : e.1 ∈ rest.map Prod.fst <;> simp [h1, h2]

theorem ResetHeader_entries (d : decoder) : (ResetHeader d).header.entries = [] := by
  simp only [ResetHeader]
  rw [foldl_delete_entries, List.filter_eq_nil_iff]
  intro e he
  simp only [decide_not, Bool.not_eq_true', decide_eq_false_iff_not, not_not]
  exact List.mem_map_of_mem Prod.fst he

theorem ResetHeader_header (d : decoder) : (ResetHeader d).header = Header.empty := by
  have h := ResetHeader_entries d
  cases hh : (ResetHeader d).header with
  | mk entries nodup =>
    rw [hh] at h
    simp only at h
    subst h
    rfl

/-! ## Canonical form is a fixed point -/

theorem canonLoop_map_asciiLower (upper : Bool) (s : Bytes) :
    (canonLoop upper s).map asciiLower = s.map asciiLower := by
  induction s generalizing upper with
  | nil => rfl
  | cons c rest ih =>
    simp only [canonLoop, List.map_cons, ih, List.cons.injEq, and_true]
    simp only [asciiLower, isUpperAZ, isLowerAZ, toLower, decide_eq_true_eq]
    cases upper <;> simp only [Bool.false_eq_true, false_and, true_and, not_false_eq_true,
      not_true_eq_false, if_false] <;> split_ifs <;> omega

theorem canonLoop_length (upper : Bool) (s : Bytes) : (canonLoop upper s).length = s.length := by
  induction s generalizing upper with
  | nil => rfl
  | cons c rest ih => simp only [canonLoop, List.length_cons, ih]

theorem canonScan_not_valid (s : Bytes) (hv : ¬ s.all validHeaderFieldByte = true)
    (upper : Bool) (rest : Bytes) : canonScan s upper rest = s := by
  have hcan : canonicalMIMEHeaderKey s = s := by
    simp [canonicalMIMEHeaderKey, hv]
  induction rest generalizing upper with
  | nil => rfl
  | cons c r ih =>
    rw [canonScan]
    split
    · rfl
    · split
      · exact hcan
      · split
        · exact hcan
        · exact ih _

theorem CanonicalMIMEHeaderKey_not_valid (s : Bytes)
    (hv : ¬ s.all validHeaderFieldByte = true) : CanonicalMIMEHeaderKey s = s :=
  canonScan_not_valid s hv true s

/-- The canonical form of a key is its own canonical form. -/
theorem CanonicalMIMEHeaderKey_idem (s : Bytes) :
    CanonicalMIMEHeaderKey (CanonicalMIMEHeaderKey s) = CanonicalMIMEHeaderKey s := by
  by_cases hv : s.all validHeaderFieldByte = true
  · rw [CanonicalMIMEHeaderKey_valid s hv]
    by_cases hv2 : (canonLoop true s).all validHeaderFieldByte = true
    · rw [CanonicalMIMEHeaderKey_valid _ hv2]
      exact canonLoop_congr true _ _ (canonLoop_map_asciiLower true s)
    · exact CanonicalMIMEHeaderKey_not_valid _ hv2
  · rw [CanonicalMIMEHeaderKey_not_valid s hv, CanonicalMIMEHeaderKey_not_valid s hv]

theorem CanonicalMIMEHeaderKey_ne_nil (s : Bytes) (h : s ≠ []) :
    CanonicalMIMEHeaderKey s ≠ [] := by
  by_cases hv : s.all validHeaderFieldByte = true
  · rw [CanonicalMIMEHeaderKey_valid s hv]
    intro h2
    have := congrArg List.length h2
    rw [canonLoop_length] at this
    exact h (List.length_eq_zero.1 this)
  · rw [CanonicalMIMEHeaderKey_not_valid s hv]; exact h

/-! ## Invariants of the reachable states -/

theorem decodeHeader_header_key (d : decoder) (line : Bytes) :
    (decodeHeader d line).1.header = d.header ∨
      ∃ k v, k ≠ [] ∧ (decodeHeader d line).1.header = d.header.Set k v := by
  unfold decodeHeader
  split
  · exact Or.inl rfl
  · simp only
    split
    · exact Or.inl rfl
    · split
      · exact Or.inl rfl
      · rename_i hk
        exact Or.inr ⟨_, _, hk, rfl⟩

theorem decodeHeader_frame (d : decoder) (line : Bytes) :
    (decodeHeader d line).1.sink = d.sink ∧ (decodeHeader d line).1.ammoNum = d.ammoNum ∧
      (decodeHeader d line).1.ammoPool = d.ammoPool := by
  unfold decodeHeader
  split
  · exact ⟨rfl, rfl, rfl⟩
  · simp only
    split
    · exact ⟨rfl, rfl, rfl⟩
    · split <;> exact ⟨rfl, rfl, rfl⟩

/-- Keys are non-empty and in canonical form. -/
theorem Reachable_keys (d : decoder) (hr : Reachable d) :
    ∀ e ∈ d.header.entries, e.1 ≠ [] ∧ CanonicalMIMEHeaderKey e.1 = e.1 := by
  induction hr with
  | fresh bits _ => intro e he; simp [newDecoderOn, Header.empty] at he
  | decode d env line _ ih =>
    rw [Decode_eq]
    cases line with
    | nil => exact ih
    | cons c rest =>
      simp only
      split
      · rw [decodeURI_header]; exact ih
      · split
        · rcases decodeHeader_header_key d (c :: rest) with h | ⟨k, v, hk, h⟩
          · rw [h]; exact ih
          · rw [h]
            intro e he
            simp only [Header.Set, Header.assign, List.mem_cons] at he
            rcases he with h1 | h1
            · rw [h1]
              exact ⟨CanonicalMIMEHeaderKey_ne_nil k hk, CanonicalMIMEHeaderKey_idem k⟩
            · exact ih e (List.mem_filter.1 h1).1
        · exact ih
  | reset d _ _ => intro e he; rw [ResetHeader_entries] at he; simp at he
  | poolPut d sh _ ih => exact ih

theorem decodeURI_no_panic (d : decoder) (env : SelectEnv) (line : Bytes)
    (hs : SingleValued d.header) : (decodeURI d env line).2 ≠ .panic := by
  unfold decodeURI
  split
  · simp
  · rename_i req0 _
    obtain ⟨req, hm⟩ := mergeHeaders_isSome d.header.entries req0 hs
    rw [hm]
    simp only
    split <;> split <;> simp

theorem Decode_no_panic (d : decoder) (env : SelectEnv) (line : Bytes)
    (hs : SingleValued d.header) : (Decode d env line).2 ≠ .panic := by
  rw [Decode_eq]
  cases line with
  | nil => simp
  | cons c rest =>
    simp only
    split
    · exact decodeURI_no_panic d env _ hs
    · split
      · rcases decodeHeader_result d (c :: rest) with h | h | h | h <;> rw [h] <;> simp
      · simp

/-- Every way a call of `Decode` can end, as far as outlet and count go: a URI line returns
success, one descriptor is sent and counted; or outlet and count stay as they were. -/
theorem Decode_cases (d : decoder) (env : SelectEnv) (line : Bytes) :
    ((Decode d env line).2 = .ok ∧ line.head? = some 47 ∧
        (∃ sh, (Decode d env line).1.sink = d.sink ++ [sh]) ∧
        (Decode d env line).1.ammoNum = wrapInt d.intBits (d.ammoNum + 1)) ∨
      ((Decode d env line).1.sink = d.sink ∧ (Decode d env line).1.ammoNum = d.ammoNum) := by
  rw [Decode_eq]
  cases line with
  | nil => exact Or.inr ⟨rfl, rfl⟩
  | cons c rest =>
    simp only
    split
    · rename_i hc
      rcases decodeURI_cases d env (c :: rest) with ⟨hok, _, req, _, _, hsink, hnum⟩ | ⟨_, h1, h2⟩
      · exact Or.inl ⟨hok, by simp [hc], ⟨_, hsink⟩, hnum⟩
      · exact Or.inr ⟨h1, h2⟩
    · split
      · exact Or.inr ⟨(decodeHeader_frame d _).1, (decodeHeader_frame d _).2.1⟩
      · exact Or.inr ⟨rfl, rfl⟩

theorem decodeHeader_ok_eq (d : decoder) (line : Bytes) (h0 : line.head? = some 91)
    (hok : (decodeHeader d line).2 = .ok) :
    TrimSpace (beforeFirst 58 (bracketText line)) ≠ [] ∧
      decodeHeader d line =
        ({ d with header := d.header.Set (TrimSpace (beforeFirst 58 (bracketText line)))
                              (TrimSpace (afterFirst 58 (bracketText line))) }, .ok) := by
  rw [decodeHeader_eq d line h0] at hok ⊢
  split at hok
  · simp at hok
  · rename_i h1
    rw [if_neg h1]
    split at hok
    · simp at hok
    · rename_i h2
      rw [if_neg h2]
      split at hok
      · simp at hok
      · rename_i h3
        rw [if_neg h3]
        exact ⟨h3, rfl⟩

theorem Header.mem_of_lookup (h : Header) (k : Bytes) (v : List Bytes)
    (hl : h.lookup k = some v) : (k, v) ∈ h.entries := by
  simp only [Header.lookup, Option.map_eq_some'] at hl
  obtain ⟨e, he, hev⟩ := hl
  have h0 := List.find?_some he
  have h1 : e.1 = k := of_decide_eq_true h0
  have h2 := List.mem_of_find?_eq_some he
  have : e = (k, v) := Prod.ext h1 hev
  rw [← this]; exact h2

/-! ## Lemmas on `url.Parse` for a line that begins with `/` -/

theorem getScheme_slash (r : Bytes) (h47 : r.head? = some 47) : getScheme r = .ok ([], r) := by
  cases r with
  | nil => simp at h47
  | cons c t =>
    have hc : c = 47 := by simpa using h47
    subst hc
    simp [getScheme, getSchemeLoop, isAlpha]

theorem beforeFirst_of_not_mem (c : Nat) (s : Bytes) (h : c ∉ s) : beforeFirst c s = s := by
  induction s with
  | nil => rfl
  | cons b rest ih =>
    have hb : b ≠ c := fun e => h (by simp [e])
    rw [beforeFirst_cons, if_neg hb, ih (fun e => h (List.mem_cons_of_mem _ e))]

theorem Cut_fst (s : Bytes) (sep : Nat) : (Cut s sep).1 = beforeFirst sep s := by
  unfold Cut
  by_cases hm : sep ∈ s
  · have hi : 0 ≤ IndexByte s sep := by
      have := (IndexByte_neg_iff s sep).not.2 (not_not.2 hm)
      omega
    simp only [hi, if_true]
    exact take_IndexByte s sep hm
  · have hi : ¬ 0 ≤ IndexByte s sep := by
      have := (IndexByte_neg_iff s sep).2 hm
      omega
    simp only [hi, if_false]
    exact (beforeFirst_of_not_mem sep s hm).symm

theorem beforeFirst_isPrefix (c : Nat) (s : Bytes) : beforeFirst c s <+: s :=
  List.takeWhile_prefix _

theorem HasPrefix_mono (a b p : Bytes) (hab : a <+: b) (h : HasPrefix a p = true) :
    HasPrefix b p = true := by
  simp only [HasPrefix, List.isPrefixOf_iff_prefix] at h ⊢
  exact h.trans hab

/-- The text that `url.parse` takes the path from, once the query is cut off. -/
theorem queryless_slashes (r : Bytes)
    (hp : HasPrefix r [47, 47] = true → HasPrefix r [47, 47, 47] = true) :
    HasPrefix (if decide (HasSuffix r [63] = true ∧ List.count 63 r = 1) = true then
        List.take (List.length r - 1) r else (Cut r 63).1) [47, 47] = true →
      HasPrefix (if decide (HasSuffix r [63] = true ∧ List.count 63 r = 1) = true then
        List.take (List.length r - 1) r else (Cut r 63).1) [47, 47, 47] = true := by
  intro h
  have hpre : (if decide (HasSuffix r [63] = true ∧ List.count 63 r = 1) = true then
      List.take (List.length r - 1) r else (Cut r 63).1) <+: r := by
    split
    · exact List.take_prefix _ _
    · rw [Cut_fst]; exact beforeFirst_isPrefix _ _
  have h3 := hp (HasPrefix_mono _ _ _ hpre h)
  simp only [HasPrefix, List.isPrefixOf_iff_prefix] at h3
  obtain ⟨t, ht⟩ := h3
  subst ht
  split
  · rename_i hf
    simp only [decide_eq_true_eq] at hf
    have hsuf := hf.1
    simp only [HasSuffix, List.isSuffixOf_iff_suffix] at hsuf
    have hlen : 4 ≤ ([47, 47, 47] ++ t).length := by
      cases t with
      | nil => exact absurd hsuf (by decide)
      | cons a t2 => simp
    simp only [HasPrefix, List.isPrefixOf_iff_prefix]
    refine ⟨t.take (t.length - 1), ?_⟩
    rw [List.take_append_eq_append_take]
    simp only [List.length_append, List.length_cons, List.length_nil] at hlen ⊢
    have h1 : List.take (0 + 1 + 1 + 1 + t.length - 1) [47, 47, 47] = [47, 47, 47] := by
      apply List.take_of_length_le
      simp only [List.length_cons, List.length_nil]
      omega
    rw [h1]
    congr 2
    omega
  · rw [Cut_fst]
    simp [HasPrefix, beforeFirst_cons, List.isPrefixOf]

theorem URL.setPath_Host (u u1 : URL) (p : Bytes) (h : u.setPath p = .ok u1) :
    u1.Host = u.Host := by
  unfold URL.setPath at h
  split at h
  · simp at h
  · simp only [Except.ok.injEq] at h
    rw [← h]

theorem URL.setFragment_Host (u u1 : URL) (f : Bytes) (h : u.setFragment f = .ok u1) :
    u1.Host = u.Host := by
  unfold URL.setFragment at h
  split at h
  · simp at h
  · simp only [Except.ok.injEq] at h
    rw [← h]

/-- A URL that begins with `/`, and with `///` when it begins with `//`, has no authority
part: `url.parse` leaves the host empty. -/
theorem parse_Host_nil (r : Bytes) (u : URL) (h47 : r.head? = some 47)
    (hp : HasPrefix r [47, 47] = true → HasPrefix r [47, 47, 47] = true)
    (h : parse r false = .ok u) : u.Host = [] := by
  have hq := queryless_slashes r hp
  unfold parse at h
  rw [getScheme_slash r h47] at h
  simp only [ToLowerASCII, List.map_nil] at h
  generalize (if decide (HasSuffix r [63] = true ∧ List.count 63 r = 1) = true then
      List.take (List.length r - 1) r else (Cut r 63).1) = rest1 at h hq
  split at h
  · simp at h
  · split at h
    · simp at h
    · split at h
      · simp only [Except.ok.injEq] at h; rw [← h]
      · split at h
        · rename_i c4; exact absurd c4.2 (by simp)
        · split at h
          · simp at h
          · split at h
            · simp at h
            · split at h
              · rename_i c7
                exact absurd (hq c7.2) (by
                  rcases c7.1 with c | c
                  · exact absurd c (by simp)
                  · exact c.2)
              · split at h
                · rename_i c8; exact absurd c8.1 (by simp)
                · exact URL.setPath_Host _ _ _ h

theorem Parse_Host_nil (line : Bytes) (u : URL) (h47 : line.head? = some 47)
    (hp : HasPrefix line [47, 47] = true → HasPrefix line [47, 47, 47] = true)
    (h : Parse line = .ok u) : u.Host = [] := by
  have hhead : (Cut line 35).1.head? = some 47 := by
    rw [Cut_fst]
    cases line with
    | nil => simp at h47
    | cons c t =>
      have hc : c = 47 := by simpa using h47
      subst hc
      simp [beforeFirst_cons]
  have hpre : HasPrefix (Cut line 35).1 [47, 47] = true →
      HasPrefix (Cut line 35).1 [47, 47, 47] = true := by
    intro h2
    rw [Cut_fst] at h2 ⊢
    have h3 := hp (HasPrefix_mono _ _ _ (beforeFirst_isPrefix 35 line) h2)
    simp only [HasPrefix, List.isPrefixOf_iff_prefix] at h3
    obtain ⟨t, ht⟩ := h3
    subst ht
    simp [HasPrefix, beforeFirst_cons, List.isPrefixOf]
  unfold Parse at h
  simp only at h
  split at h
  · simp at h
  · rename_i u0 hu0
    have h0 := parse_Host_nil _ u0 hhead hpre hu0
    split at h
    · simp only [Except.ok.injEq] at h; rw [← h]; exact h0
    · rw [URL.setFragment_Host _ _ _ h]; exact h0

theorem NewRequest_Host_nil (method line : Bytes) (req0 : Request)
    (h47 : line.head? = some 47)
    (hp : HasPrefix line [47, 47] = true → HasPrefix line [47, 47, 47] = true)
    (h : NewRequest method line = .ok req0) : req0.URL.Host = [] ∧ req0.Host = [] := by
  unfold NewRequest at h
  simp only at h
  generalize (if method = [] then str "GET" else method) = m at h
  split at h
  · simp at h
  · split at h
    · simp at h
    · rename_i u hu
      have h0 := Parse_Host_nil line u h47 hp hu
      simp only [Except.ok.injEq] at h
      rw [← h, h0]
      exact ⟨rfl, rfl⟩

theorem Header.not_mem_of_lookup_none (h : Header) (k : Bytes) (hl : h.lookup k = none) :
    ∀ e ∈ h.entries, e.1 ≠ k := by
  intro e he hk
  have := Header.lookup_of_mem h e he
  rw [hk, hl] at this
  exact absurd this (by simp)

/-! ## The Go `int` counter -/

theorem wrapInt_wrapInt_add (bits : Nat) (x y : Int) :
    wrapInt bits (wrapInt bits x + y) = wrapInt bits (x + y) := by
  unfold wrapInt
  have h : (x + ((2 ^ (bits - 1) : Nat) : Int)) % ((2 ^ bits : Nat) : Int)
      - ((2 ^ (bits - 1) : Nat) : Int) + y + ((2 ^ (bits - 1) : Nat) : Int)
      = (x + ((2 ^ (bits - 1) : Nat) : Int)) % ((2 ^ bits : Nat) : Int) + y := by ring
  rw [h, Int.emod_add_emod]
  congr 2
  ring

theorem wrapInt_idem (bits : Nat) (x : Int) : wrapInt bits (wrapInt bits x) = wrapInt bits x := by
  have h := wrapInt_wrapInt_add bits x 0
  simpa using h

/-- A Go `int` holds every value from `-2^31` to `2^31 - 1` unchanged, on either platform. -/
theorem wrapInt_small (bits : Nat) (hbits : bits = 32 ∨ bits = 64) (x : Int)
    (h1 : -2147483648 ≤ x) (h2 : x < 2147483648) : wrapInt bits x = x := by
  rcases hbits with h | h <;> subst h <;> simp only [wrapInt] <;> norm_num <;> omega

/-- Adding one to a Go `int` never gives the same value back. -/
theorem wrapInt_succ_ne (bits : Nat) (hbits : bits = 32 ∨ bits = 64) (x : Int) :
    wrapInt bits (wrapInt bits x + 1) ≠ wrapInt bits x := by
  rcases hbits with h | h <;> subst h <;> simp only [wrapInt] <;> norm_num <;> omega

theorem wrapInt_lower (bits : Nat) (hbits : bits = 32 ∨ bits = 64) (x : Int) :
    -9223372036854775808 ≤ wrapInt bits x := by
  rcases hbits with h | h <;> subst h <;> simp only [wrapInt] <;> norm_num <;> omega

theorem wrapInt_32_min : wrapInt 32 2147483648 = -2147483648 := by decide

/-! ## The run of a list of lines against the specification -/

theorem Holds_empty : Holds Header.empty (fun _ => none) := fun _ => rfl

theorem Holds_Set (h : Header) (ctx : HeaderContext) (line : Bytes) (hh : Holds h ctx) :
    Holds (h.Set (TrimSpace (beforeFirst 58 (bracketText line)))
      (TrimSpace (afterFirst 58 (bracketText line)))) (storeHeader ctx line) := by
  intro k
  simp only [storeHeader, Header.Set]
  by_cases hk : k = CanonicalMIMEHeaderKey (TrimSpace (beforeFirst 58 (bracketText line)))
  · rw [if_pos hk, hk, Header.lookup_assign_self]; rfl
  · rw [if_neg hk, Header.lookup_assign_ne _ _ _ _ hk]; exact hh k

theorem Holds_SingleValued (h : Header) (ctx : HeaderContext) (hh : Holds h ctx) :
    SingleValued h := by
  intro e he
  have h1 := Header.lookup_of_mem h e he
  rw [hh e.1] at h1
  cases hc : ctx e.1 with
  | none => rw [hc] at h1; simp at h1
  | some v =>
    rw [hc] at h1
    simp only [Option.map_some', Option.some.injEq] at h1
    exact ⟨v, h1.symm⟩

theorem NewRequest_Method (line : Bytes) (req0 : Request)
    (h : NewRequest (str "GET") line = .ok req0) : req0.Method = str "GET" := by
  unfold NewRequest at h
  have hne : ¬ str "GET" = [] := by decide
  simp only [hne, if_false] at h
  split at h
  · simp at h
  · split at h
    · simp at h
    · simp only [Except.ok.injEq] at h
      rw [← h]

theorem DescriptorFor_of_merge (h : Header) (ctx : HeaderContext) (line : Bytes)
    (req0 req : Request) (hh : Holds h ctx) (hreq : NewRequest (str "GET") line = .ok req0)
    (hm : mergeHeaders h.entries req0 = some req) :
    DescriptorFor ctx line ⟨some req, str "REQUEST"⟩ := by
  obtain ⟨f1, f2, f3, f4, f5⟩ := mergeHeaders_frame h.entries req0 req hm
  obtain ⟨g1, g2⟩ := mergeHeaders_fresh h _ _ req0 req hreq hm
  have hhost : req.Host = (ctx (str "Host")).getD req0.Host ∧
      req.URL.Host = (ctx (str "Host")).getD req0.URL.Host := by
    cases hc : ctx (str "Host") with
    | none =>
      have hl : h.lookup (str "Host") = none := by rw [hh, hc]; rfl
      exact mergeHeaders_host_none h.entries req0 req hm (Header.not_mem_of_lookup_none _ _ hl)
    | some v =>
      have hl : h.lookup (str "Host") = some [v] := by rw [hh, hc]; rfl
      obtain ⟨v0, rest, hv, h1, h2⟩ := g2 _ hl
      have hv0 : v0 = v := (List.cons.inj hv).1.symm
      rw [h1, h2, hv0]
      exact ⟨rfl, rfl⟩
  refine ⟨req0, req, hreq, rfl, f1.trans (NewRequest_Method line req0 hreq), f2, f3, f4, f5,
    ?_, hhost.1, hhost.2⟩
  intro k
  rw [g1 k, hh k]

theorem expectedDeliveries_lines (ctx : HeaderContext) (lines : List Bytes) :
    (expectedDeliveries ctx lines).map Prod.snd = lines.filter (fun l => l.head? = some 47) := by
  induction lines generalizing ctx with
  | nil => rfl
  | cons line rest ih =>
    by_cases h : line.head? = some 47
    · simp only [expectedDeliveries, h, if_true, List.map_cons, List.filter_cons, decide_True, ih]
    · simp only [expectedDeliveries, h, if_false, List.filter_cons, decide_False, ih]
      rfl

/-- The run of a list of lines, each a URI line that parses or a header line that is
accepted, with no cancellation and an accepting outlet, from a state whose header map holds
`ctx`: every call returns success, the descriptors sent are the expected ones in order, and
the counter has been incremented once per URI line. -/
theorem DecodeAll_run (calls : List (SelectEnv × Bytes)) (d : decoder) (ctx : HeaderContext)
    (hh : Holds d.header ctx)
    (henv : ∀ c ∈ calls, c.1.sinkReady = true ∧ c.1.ctxErr = none)
    (hlines : ∀ c ∈ calls,
      (c.2.head? = some 47 ∧ ∃ req, NewRequest (str "GET") c.2 = .ok req) ∨
      (c.2.head? = some 91 ∧ (Decode newDecoder c.1 c.2).2 = .ok)) :
    (DecodeAll d calls).2 = calls.map (fun _ => Result.ok) ∧
      (∃ sent, (DecodeAll d calls).1.sink = d.sink ++ sent ∧
        List.Forall₂ (fun sh p => DescriptorFor p.1 p.2 sh) sent
          (expectedDeliveries ctx (calls.map Prod.snd))) ∧
      wrapInt d.intBits (DecodeAll d calls).1.ammoNum
        = wrapInt d.intBits (d.ammoNum +
            ((calls.map Prod.snd).filter (fun l => l.head? = some 47)).length) ∧
      (DecodeAll d calls).1.intBits = d.intBits := by
  induction calls generalizing d ctx with
  | nil => exact ⟨rfl, ⟨[], by simp [DecodeAll], by simp [expectedDeliveries]⟩,
      by simp [DecodeAll], rfl⟩
  | cons c rest ih =>
    have henv2 : ∀ x ∈ rest, x.1.sinkReady = true ∧ x.1.ctxErr = none :=
      fun x hx => henv x (List.mem_cons_of_mem _ hx)
    have hlines2 : ∀ x ∈ rest,
        (x.2.head? = some 47 ∧ ∃ req, NewRequest (str "GET") x.2 = .ok req) ∨
        (x.2.head? = some 91 ∧ (Decode newDecoder x.1 x.2).2 = .ok) :=
      fun x hx => hlines x (List.mem_cons_of_mem _ hx)
    obtain ⟨hready, hctx⟩ := henv c (List.mem_cons_self _ _)
    rw [DecodeAll_cons]
    rcases hlines c (List.mem_cons_self _ _) with ⟨h47, req0, hreq⟩ | ⟨h91, hok⟩
    · -- a URI line
      obtain ⟨req, hm⟩ :=
        mergeHeaders_isSome d.header.entries req0 (Holds_SingleValued _ _ hh)
      have hD : Decode d c.1 c.2 =
          ({ d with ammoPool := (poolGet d.ammoPool).2,
                    sink := d.sink ++ [⟨some req, str "REQUEST"⟩],
                    ammoNum := wrapInt d.intBits (d.ammoNum + 1) }, Result.ok) := by
        rw [Decode_uri _ _ _ h47]
        unfold decodeURI
        simp only [hreq, hm, hctx, hready, if_true]
        rfl
      rw [hD]
      simp only [false_or, if_false]
      obtain ⟨ih1, ⟨sent, ih2, ih3⟩, ih4, ih5⟩ :=
        ih { d with ammoPool := (poolGet d.ammoPool).2,
                    sink := d.sink ++ [⟨some req, str "REQUEST"⟩],
                    ammoNum := wrapInt d.intBits (d.ammoNum + 1) } ctx hh henv2 hlines2
      refine ⟨by simp [ih1], ⟨⟨some req, str "REQUEST"⟩ :: sent, ?_, ?_⟩, ?_, ih5⟩
      · show (DecodeAll _ rest).1.sink = _
        rw [ih2]; simp
      · simp only [List.map_cons, expectedDeliveries, h47, if_true]
        exact List.Forall₂.cons (DescriptorFor_of_merge _ ctx _ req0 req hh hreq hm) ih3
      · show wrapInt d.intBits (DecodeAll _ rest).1.ammoNum = _
        have ih4b : wrapInt d.intBits (DecodeAll _ rest).1.ammoNum = _ := ih4
        rw [ih4b]
        simp only [List.map_cons, List.filter_cons, h47, decide_True, if_true, List.length_cons]
        rw [wrapInt_wrapInt_add]
        congr 1
        push_cast
        ring
    · -- a header line
      rw [Decode_header _ _ _ h91] at hok
      have hok2 : (decodeHeader d c.2).2 = .ok := by
        rw [decodeHeader_result_indep d newDecoder]; exact hok
      obtain ⟨_, hD⟩ := decodeHeader_ok_eq d c.2 h91 hok2
      rw [Decode_header _ _ _ h91, hD]
      simp only [false_or, if_false]
      obtain ⟨ih1, ⟨sent, ih2, ih3⟩, ih4, ih5⟩ :=
        ih { d with header := d.header.Set (TrimSpace (beforeFirst 58 (bracketText c.2)))
                                (TrimSpace (afterFirst 58 (bracketText c.2))) }
          (storeHeader ctx c.2) (Holds_Set _ _ _ hh) henv2 hlines2
      have hn47 : ¬ c.2.head? = some 47 := by rw [h91]; simp
      refine ⟨by simp [ih1], ⟨sent, ih2, ?_⟩, ?_, ih5⟩
      · simp only [List.map_cons, expectedDeliveries, hn47, if_false]
        exact ih3
      · show wrapInt d.intBits (DecodeAll _ rest).1.ammoNum = _
        have ih4b : wrapInt d.intBits (DecodeAll _ rest).1.ammoNum = _ := ih4
        rw [ih4b]
        simp only [List.map_cons, List.filter_cons, hn47, decide_False]
        rfl

/-! ## The counter in the reachable states -/

theorem decodeURI_intBits (d : decoder) (env : SelectEnv) (line : Bytes) :
    (decodeURI d env line).1.intBits = d.intBits := by
  unfold decodeURI
  split
  · rfl
  · split
    · rfl
    · split <;> split <;> rfl

theorem decodeHeader_intBits (d : decoder) (line : Bytes) :
    (decodeHeader d line).1.intBits = d.intBits := by
  unfold decodeHeader
  split
  · rfl
  · simp only
    split
    · rfl
    · split <;> rfl

theorem Decode_intBits (d : decoder) (env : SelectEnv) (line : Bytes) :
    (Decode d env line).1.intBits = d.intBits := by
  rw [Decode_eq]
  cases line with
  | nil => rfl
  | cons c rest =>
    simp only
    split
    · exact decodeURI_intBits d env _
    · split
      · exact decodeHeader_intBits d _
      · rfl

theorem Reachable_intBits (d : decoder) (hr : Reachable d) :
    d.intBits = 32 ∨ d.intBits = 64 := by
  induction hr with
  | fresh bits hbits => exact hbits
  | decode d env line _ ih => rw [Decode_intBits]; exact ih
  | reset d _ ih => exact ih
  | poolPut d sh _ ih => exact ih

/-- In a reachable state the counter is the number of descriptors sent, as a Go `int`. -/
theorem Reachable_count (d : decoder) (hr : Reachable d) :
    d.ammoNum = wrapInt d.intBits d.sink.length := by
  induction hr with
  | fresh bits hbits =>
    rcases hbits with h | h <;> subst h <;> decide
  | decode d env line _ ih =>
    rcases Decode_cases d env line with ⟨_, _, ⟨sh, h1⟩, h2⟩ | ⟨h1, h2⟩
    · rw [h1, h2, Decode_intBits, ih, wrapInt_wrapInt_add]
      congr 1
      simp
    · rw [h1, h2, Decode_intBits]; exact ih
  | reset d _ ih => exact ih
  | poolPut d sh _ ih => exact ih

theorem Reachable_DecodeAll (calls : List (SelectEnv × Bytes)) (d : decoder)
    (hr : Reachable d) : Reachable (DecodeAll d calls).1 := by
  induction calls generalizing d with
  | nil => exact hr
  | cons c rest ih =>
    rw [DecodeAll_cons]
    split
    · exact Reachable.decode d c.1 c.2 hr
    · exact ih _ (Reachable.decode d c.1 c.2 hr)

/-- The run of C4 from a fresh decoder, with the counter. -/
theorem DecodeAll_fresh (bits : Nat) (hbits : bits = 32 ∨ bits = 64)
    (calls : List (SelectEnv × Bytes))
    (henv : ∀ c ∈ calls, c.1.sinkReady = true ∧ c.1.ctxErr = none)
    (hlines : ∀ c ∈ calls,
      (c.2.head? = some 47 ∧ ∃ req, NewRequest (str "GET") c.2 = .ok req) ∨
      (c.2.head? = some 91 ∧ (Decode newDecoder c.1 c.2).2 = .ok)) :
    (DecodeAll (newDecoderOn bits) calls).2 = calls.map (fun _ => Result.ok) ∧
      List.Forall₂ (fun sh p => DescriptorFor p.1 p.2 sh)
        (DecodeAll (newDecoderOn bits) calls).1.sink
        (expectedDeliveries (fun _ => none) (calls.map Prod.snd)) ∧
      (DecodeAll (newDecoderOn bits) calls).1.sink.length
        = ((calls.map Prod.snd).filter (fun l => l.head? = some 47)).length ∧
      (DecodeAll (newDecoderOn bits) calls).1.ammoNum
        = wrapInt bits ((calls.map Prod.snd).filter (fun l => l.head? = some 47)).length := by
  obtain ⟨h1, ⟨sent, h2, h3⟩, h4, h5⟩ :=
    DecodeAll_run calls (newDecoderOn bits) (fun _ => none) Holds_empty henv hlines
  have hsink : (DecodeAll (newDecoderOn bits) calls).1.sink = sent := by rw [h2]; rfl
  have hlen : (DecodeAll (newDecoderOn bits) calls).1.sink.length
      = ((calls.map Prod.snd).filter (fun l => l.head? = some 47)).length := by
    rw [hsink, h3.length_eq, ← expectedDeliveries_lines (fun _ => none), List.length_map]
  refine ⟨h1, by rw [hsink]; exact h3, hlen, ?_⟩
  have hc := Reachable_count _ (Reachable_DecodeAll calls _ (Reachable.fresh bits hbits))
  rw [hc, h5, hlen]
  rfl

theorem wrapInt_succ_small (bits : Nat) (hbits : bits = 32 ∨ bits = 64) (y : Int)
    (h : wrapInt bits y + 1 < 2147483648) :
    wrapInt bits (wrapInt bits y + 1) = wrapInt bits y + 1 := by
  rcases hbits with hb | hb <;> subst hb <;> simp only [wrapInt] at h ⊢ <;> norm_num at h ⊢ <;>
    omega

/-- The run of `2^31` copies of the URI line `/x` on a 32-bit platform: every call returns
success, `2^31` descriptors are sent, and the counter ends at `-2^31`. -/
theorem overflow_run :
    (DecodeAll (newDecoderOn 32)
        (List.replicate 2147483648 (⟨true, none, false⟩, str "/x"))).2
        = List.replicate 2147483648 Result.ok ∧
      (DecodeAll (newDecoderOn 32)
        (List.replicate 2147483648 (⟨true, none, false⟩, str "/x"))).1.sink.length
        = 2147483648 ∧
      (DecodeAll (newDecoderOn 32)
        (List.replicate 2147483648 (⟨true, none, false⟩, str "/x"))).1.ammoNum
        = -2147483648 := by
  have henv : ∀ c ∈ List.replicate 2147483648 ((⟨true, none, false⟩ : SelectEnv), str "/x"),
      c.1.sinkReady = true ∧ c.1.ctxErr = none := by
    intro c hc
    rw [List.eq_of_mem_replicate hc]
    exact ⟨rfl, rfl⟩
  have hlines : ∀ c ∈ List.replicate 2147483648 ((⟨true, none, false⟩ : SelectEnv), str "/x"),
      (c.2.head? = some 47 ∧ ∃ req, NewRequest (str "GET") c.2 = .ok req) ∨
      (c.2.head? = some 91 ∧ (Decode newDecoder c.1 c.2).2 = .ok) := by
    intro c hc
    rw [List.eq_of_mem_replicate hc]
    exact Or.inl ⟨rfl, _, rfl⟩
  obtain ⟨h1, _, h3, h4⟩ := DecodeAll_fresh 32 (Or.inl rfl) _ henv hlines
  have hhead : (decide ((str "/x").head? = some 47)) = true := by decide
  rw [List.map_replicate] at h1
  rw [List.map_replicate, List.filter_replicate] at h3 h4
  simp only [hhead, if_true, List.length_replicate] at h3 h4
  refine ⟨h1, h3, ?_⟩
  rw [h4]
  exact wrapInt_32_min

/-! ## The claims -/

/-- C1: for every decoder state and every header line `[k: v]` whose key text trims to a
non-empty key that does not canonicalize to `Host`, the line decodes with success, and when
the next call decodes a URI line with success (it parses and the outlet accepts the
descriptor), the one descriptor that call sends holds in its header set, under the
canonicalized key, exactly the single trimmed value. -/
theorem C1_header_carried_by_next_descriptor (d d2 : decoder) (env1 env2 : SelectEnv)
    (k v uline : Bytes) (hcolon : 58 ∉ k) (hkey : TrimSpace k ≠ [])
    (hhost : CanonicalMIMEHeaderKey (TrimSpace k) ≠ str "Host")
    (huri : uline.head? = some 47)
    (hnext : Decode (Decode d env1 (headerLine k v)).1 env2 uline = (d2, .ok)) :
    (Decode d env1 (headerLine k v)).2 = .ok ∧
      ∃ sh req, d2.sink = d.sink ++ [sh] ∧ sh.req = some req ∧
        req.Header.lookup (CanonicalMIMEHeaderKey (TrimSpace k)) = some [TrimSpace v] := by
  rw [Decode_headerLine, decodeHeader_headerLine d k v hcolon, if_neg hkey] at hnext ⊢
  refine ⟨rfl, ?_⟩
  rw [Decode_uri _ _ _ huri] at hnext
  obtain ⟨req0, req, hreq, hm, hd2, _, _⟩ := decodeURI_ok _ _ _ _ hnext
  refine ⟨⟨some req, str "REQUEST"⟩, req, ?_, rfl, ?_⟩
  · rw [hd2]
  · rw [(mergeHeaders_fresh _ _ _ req0 req hreq hm).1, if_neg hhost]
    exact Header.lookup_assign_self _ _ _

/-- C1, at the header line `[ x-trace: 1 ]` followed by the URI line `/foo` on a fresh decoder
whose outlet accepts. -/
theorem C1_witness :
    58 ∉ str " x-trace" ∧ TrimSpace (str " x-trace") ≠ [] ∧
      (Decode newDecoder ⟨true, none, false⟩ (headerLine (str " x-trace") (str " 1 "))).2 = .ok ∧
      ∃ sh req,
        (Decode (Decode newDecoder ⟨true, none, false⟩
          (headerLine (str " x-trace") (str " 1 "))).1 ⟨true, none, false⟩ (str "/foo")).1.sink
          = newDecoder.sink ++ [sh] ∧ sh.req = some req ∧
        req.Header.lookup (CanonicalMIMEHeaderKey (TrimSpace (str " x-trace")))
          = some [TrimSpace (str " 1 ")] :=
  ⟨by decide, by decide,
    C1_header_carried_by_next_descriptor newDecoder _ ⟨true, none, false⟩ ⟨true, none, false⟩
      (str " x-trace") (str " 1 ") (str "/foo") (by decide) (by decide) (by decide) rfl rfl⟩

/-- C2: for every decoder state and every header line whose trimmed key canonicalizes to
`Host`, with trimmed value `v`, the line decodes with success; and when, after any number
of calls that return an error, a call decodes a URI line with success, the descriptor it
sends has its URL host component and its request host field both equal to `v`, and its
header set has no `Host` entry. -/
theorem C2_host_header_sets_host_fields (d d2 : decoder) (env1 env2 : SelectEnv)
    (k v uline : Bytes) (failed : List (SelectEnv × Bytes)) (hcolon : 58 ∉ k)
    (hhost : CanonicalMIMEHeaderKey (TrimSpace k) = str "Host")
    (hfailed : ∀ r ∈ (DecodeAll (Decode d env1 (headerLine k v)).1 failed).2,
      ∃ e, r = Result.err e)
    (huri : uline.head? = some 47)
    (hnext : Decode (DecodeAll (Decode d env1 (headerLine k v)).1 failed).1 env2 uline
      = (d2, .ok)) :
    (Decode d env1 (headerLine k v)).2 = .ok ∧
      ∃ sh req, d2.sink = d.sink ++ [sh] ∧ sh.req = some req ∧
        req.URL.Host = TrimSpace v ∧ req.Host = TrimSpace v ∧
        req.Header.lookup (str "Host") = none := by
  have hkey : TrimSpace k ≠ [] := by
    intro h
    rw [h, CanonicalMIMEHeaderKey_nil] at hhost
    exact absurd hhost (by decide)
  obtain ⟨f1, f2, _⟩ := DecodeAll_all_err failed _ hfailed
  rw [Decode_headerLine, decodeHeader_headerLine d k v hcolon, if_neg hkey] at f1 f2 hnext ⊢
  refine ⟨rfl, ?_⟩
  rw [Decode_uri _ _ _ huri] at hnext
  obtain ⟨req0, req, hreq, hm, hd2, _, _⟩ := decodeURI_ok _ _ _ _ hnext
  rw [f1] at hm
  have hf := mergeHeaders_fresh _ _ _ req0 req hreq hm
  have hl : (d.header.Set (TrimSpace k) (TrimSpace v)).lookup (str "Host")
      = some [TrimSpace v] := by
    rw [Header.Set, hhost]
    exact Header.lookup_assign_self _ _ _
  obtain ⟨v0, rest, hv, h1, h2⟩ := hf.2 _ hl
  have hv0 : v0 = TrimSpace v := (List.cons.inj hv).1.symm
  refine ⟨⟨some req, str "REQUEST"⟩, req, ?_, rfl, ?_, ?_, ?_⟩
  · rw [hd2]
    show (DecodeAll _ failed).1.sink ++ _ = _
    rw [f2]
  · rw [h2, hv0]
  · rw [h1, hv0]
  · rw [hf.1, if_pos rfl]

/-- C2, at the header line `[host: example.com]`, followed by a URI line that does not parse,
a cancelled URI line and the URI line `/foo`; the keys `host`, ` HOST ` and `Host` all
canonicalize to `Host`. -/
theorem C2_witness :
    CanonicalMIMEHeaderKey (TrimSpace (str "host")) = str "Host" ∧
      CanonicalMIMEHeaderKey (TrimSpace (str " HOST ")) = str "Host" ∧
      CanonicalMIMEHeaderKey (TrimSpace (str "Host")) = str "Host" ∧
      (Decode newDecoder ⟨true, none, false⟩
        (headerLine (str "host") (str " example.com"))).2 = .ok ∧
      ∃ sh req,
        (Decode (DecodeAll (Decode newDecoder ⟨true, none, false⟩
            (headerLine (str "host") (str " example.com"))).1
            [(⟨true, none, false⟩, str "/a b%"), (⟨false, some .Canceled, false⟩, str "/b")]).1
          ⟨true, none, false⟩ (str "/foo")).1.sink = newDecoder.sink ++ [sh] ∧
        sh.req = some req ∧ req.URL.Host = TrimSpace (str " example.com") ∧
        req.Host = TrimSpace (str " example.com") ∧ req.Header.lookup (str "Host") = none :=
  ⟨by decide, by decide, by decide,
    C2_host_header_sets_host_fields newDecoder _ ⟨true, none, false⟩ ⟨true, none, false⟩
      (str "host") (str " example.com") (str "/foo")
      [(⟨true, none, false⟩, str "/a b%"), (⟨false, some .Canceled, false⟩, str "/b")]
      (by decide) (by decide)
      (by
        intro r hr
        have hres : (DecodeAll (Decode newDecoder ⟨true, none, false⟩
            (headerLine (str "host") (str " example.com"))).1
            [(⟨true, none, false⟩, str "/a b%"),
              (⟨false, some .Canceled, false⟩, str "/b")]).2
            = [.err (.UriParseError (.parseError (.escapeError (str "%")))),
                .err (.Cancelled .Canceled)] := by decide
        rw [hres] at hr
        simp only [List.mem_cons, List.mem_singleton, List.not_mem_nil, or_false] at hr
        rcases hr with rfl | rfl <;> exact ⟨_, rfl⟩)
      rfl rfl⟩

/-- C3: decoding a URI line leaves the header map as it was, whatever the outcome; and for
every decoder state and every run of consecutive URI lines, the header map at the end is
the one at the start, and every descriptor sent during the run carries the same headers,
those of the header map without `Host`, and the same host override, the value of the `Host`
entry of the header map when it has one. -/
theorem C3_uri_lines_leave_header_context (d : decoder) (calls : List (SelectEnv × Bytes))
    (huri : ∀ c ∈ calls, c.2.head? = some 47) :
    (∀ c ∈ calls, ∀ d0 : decoder, (Decode d0 c.1 c.2).1.header = d0.header) ∧
      (DecodeAll d calls).1.header = d.header ∧
      ∃ sent, (DecodeAll d calls).1.sink = d.sink ++ sent ∧
        ∀ sh ∈ sent, ∃ req, sh.req = some req ∧
          (∀ k, req.Header.lookup k = if k = str "Host" then none else d.header.lookup k) ∧
          (∀ v, d.header.lookup (str "Host") = some v →
            ∃ v0 rest, v = v0 :: rest ∧ req.Host = v0 ∧ req.URL.Host = v0) := by
  refine ⟨fun c hc d0 => by rw [Decode_uri _ _ _ (huri c hc)]; exact decodeURI_header _ _ _, ?_⟩
  induction calls generalizing d with
  | nil => exact ⟨rfl, [], by simp [DecodeAll], by simp⟩
  | cons c rest ih =>
    have hc := huri c (List.mem_cons_self _ _)
    have hrest : ∀ x ∈ rest, x.2.head? = some 47 := fun x hx => huri x (List.mem_cons_of_mem _ hx)
    rw [DecodeAll_cons, Decode_uri _ _ _ hc]
    have hh := decodeURI_header d c.1 c.2
    obtain ⟨ih1, sent, ih2, ih3⟩ := ih (decodeURI d c.1 c.2).1 hrest
    rw [hh] at ih1 ih3
    rcases decodeURI_cases d c.1 c.2 with ⟨hok, req0, req, hreq, hm, hsink, _⟩ | ⟨_, hsink, _⟩
    · have hne : ¬ ((decodeURI d c.1 c.2).2 = .panic ∨ (decodeURI d c.1 c.2).2 = .blocked) := by
        rw [hok]; simp
      rw [if_neg hne]
      refine ⟨ih1, ⟨some req, str "REQUEST"⟩ :: sent, ?_, ?_⟩
      · show (DecodeAll (decodeURI d c.1 c.2).1 rest).1.sink = _
        rw [ih2, hsink]; simp
      · intro sh hsh
        rcases List.mem_cons.1 hsh with h1 | h1
        · subst h1
          exact ⟨req, rfl, mergeHeaders_fresh d.header _ _ req0 req hreq hm⟩
        · exact ih3 sh h1
    · split
      · exact ⟨hh, [], by simp [hsink], by simp⟩
      · refine ⟨ih1, sent, ?_, ih3⟩
        show (DecodeAll (decodeURI d c.1 c.2).1 rest).1.sink = _
        rw [ih2, hsink]

/-- C3, on a decoder holding `Host` and `X-Trace`, over four URI lines: one delivered, one
cancelled, one that does not parse, one delivered. -/
theorem C3_witness :
    (DecodeAll (DecodeAll newDecoder [(⟨true, none, false⟩, str "[Host: example.com]"),
        (⟨true, none, false⟩, str "[X-Trace: 1]")]).1
      [(⟨true, none, false⟩, str "/a"), (⟨false, some .Canceled, false⟩, str "/b"),
        (⟨true, none, false⟩, str "/a b%"), (⟨true, none, false⟩, str "/c")]).1.header
      = (DecodeAll newDecoder [(⟨true, none, false⟩, str "[Host: example.com]"),
        (⟨true, none, false⟩, str "[X-Trace: 1]")]).1.header :=
  (C3_uri_lines_leave_header_context
    (DecodeAll newDecoder [(⟨true, none, false⟩, str "[Host: example.com]"),
        (⟨true, none, false⟩, str "[X-Trace: 1]")]).1
    [(⟨true, none, false⟩, str "/a"), (⟨false, some .Canceled, false⟩, str "/b"),
        (⟨true, none, false⟩, str "/a b%"), (⟨true, none, false⟩, str "/c")]
    (by decide)).2.1

/-- C4, refuted as stated: on a platform whose `int` has 32 bits, a fresh decoder with no
cancellation and an accepting outlet, fed `2^31` URI lines `/x`, returns success every time
and sends `2^31` descriptors, but the delivered count `ammoNum` ends at `-2^31`, not at the
number of URI lines. -/
theorem C4_counterexample :
    (DecodeAll (newDecoderOn 32)
        (List.replicate 2147483648 (⟨true, none, false⟩, str "/x"))).2
        = List.replicate 2147483648 Result.ok ∧
      (DecodeAll (newDecoderOn 32)
        (List.replicate 2147483648 (⟨true, none, false⟩, str "/x"))).1.sink.length
        = 2147483648 ∧
      (DecodeAll (newDecoderOn 32)
        (List.replicate 2147483648 (⟨true, none, false⟩, str "/x"))).1.ammoNum
        ≠ 2147483648 := by
  obtain ⟨h1, h2, h3⟩ := overflow_run
  refine ⟨h1, h2, ?_⟩
  rw [h3]
  decide

/-- C4, amended: start from a fresh decoder, on a 32-bit or a 64-bit platform; let the
cancellation signal never be tripped and the outlet accept every send; feed it lines that
are each a URI line that parses or a header line that decodes with success. Then every call
returns success; the descriptors sent to the outlet are as many as the URI lines; the i-th
descriptor is the one the specification expects for the i-th URI line (tag, method, URL
parsed from that line, the headers and the host override accumulated by the header lines
before it); and the delivered count `ammoNum` is the number of URI lines as a Go `int`,
which is that number itself as long as it is below `2^31`. -/
theorem C4_every_uri_line_delivered_in_order (bits : Nat) (hbits : bits = 32 ∨ bits = 64)
    (calls : List (SelectEnv × Bytes))
    (henv : ∀ c ∈ calls, c.1.sinkReady = true ∧ c.1.ctxErr = none)
    (hlines : ∀ c ∈ calls,
      (c.2.head? = some 47 ∧ ∃ req, NewRequest (str "GET") c.2 = .ok req) ∨
      (c.2.head? = some 91 ∧ (Decode newDecoder c.1 c.2).2 = .ok)) :
    (DecodeAll (newDecoderOn bits) calls).2 = calls.map (fun _ => Result.ok) ∧
      (DecodeAll (newDecoderOn bits) calls).1.sink.length
        = ((calls.map Prod.snd).filter (fun l => l.head? = some 47)).length ∧
      List.Forall₂ (fun sh p => DescriptorFor p.1 p.2 sh)
        (DecodeAll (newDecoderOn bits) calls).1.sink
        (expectedDeliveries (fun _ => none) (calls.map Prod.snd)) ∧
      (expectedDeliveries (fun _ => none) (calls.map Prod.snd)).map Prod.snd
        = (calls.map Prod.snd).filter (fun l => l.head? = some 47) ∧
      (DecodeAll (newDecoderOn bits) calls).1.ammoNum
        = wrapInt bits ((calls.map Prod.snd).filter (fun l => l.head? = some 47)).length ∧
      (((calls.map Prod.snd).filter (fun l => l.head? = some 47)).length < 2147483648 →
        (DecodeAll (newDecoderOn bits) calls).1.ammoNum
          = ((calls.map Prod.snd).filter (fun l => l.head? = some 47)).length) := by
  obtain ⟨h1, h2, h3, h4⟩ := DecodeAll_fresh bits hbits calls henv hlines
  refine ⟨h1, h3, h2, expectedDeliveries_lines _ _, h4, ?_⟩
  intro hN
  rw [h4]
  apply wrapInt_small bits hbits
  · omega
  · omega

/-- C4 amended, on a 32-bit platform and the lines `/x`, `[H: 1]`, `/x`, `//a/y`,
`[Host: h]`, `/z?q`: the four descriptors with their paths, queries, hosts and header sets,
in input order, and count 4. -/
theorem C4_witness :
    (DecodeAll (newDecoderOn 32) [(⟨true, none, false⟩, str "/x"),
        (⟨true, none, false⟩, str "[H: 1]"), (⟨true, none, false⟩, str "/x"),
        (⟨true, none, false⟩, str "//a/y"), (⟨true, none, false⟩, str "[Host: h]"),
        (⟨true, none, false⟩, str "/z?q")]).1.sink.map
          (fun sh => sh.req.map (fun r =>
            (r.URL.Path, r.URL.RawQuery, r.URL.Host, r.Host, r.Header.entries)))
        = [some (str "/x", str "", str "", str "", []),
            some (str "/x", str "", str "", str "", [(str "H", [str "1"])]),
            some (str "/y", str "", str "a", str "a", [(str "H", [str "1"])]),
            some (str "/z", str "q", str "h", str "h", [(str "H", [str "1"])])] ∧
      (DecodeAll (newDecoderOn 32) [(⟨true, none, false⟩, str "/x"),
        (⟨true, none, false⟩, str "[H: 1]"), (⟨true, none, false⟩, str "/x"),
        (⟨true, none, false⟩, str "//a/y"), (⟨true, none, false⟩, str "[Host: h]"),
        (⟨true, none, false⟩, str "/z?q")]).1.ammoNum = 4 ∧
      List.Forall₂ (fun sh p => DescriptorFor p.1 p.2 sh)
        (DecodeAll (newDecoderOn 32) [(⟨true, none, false⟩, str "/x"),
          (⟨true, none, false⟩, str "[H: 1]"), (⟨true, none, false⟩, str "/x"),
          (⟨true, none, false⟩, str "//a/y"), (⟨true, none, false⟩, str "[Host: h]"),
          (⟨true, none, false⟩, str "/z?q")]).1.sink
        (expectedDeliveries (fun _ => none) [str "/x", str "[H: 1]", str "/x", str "//a/y",
          str "[Host: h]", str "/z?q"]) :=
  ⟨rfl, by decide,
    (C4_every_uri_line_delivered_in_order 32 (Or.inl rfl)
      [(⟨true, none, false⟩, str "/x"), (⟨true, none, false⟩, str "[H: 1]"),
        (⟨true, none, false⟩, str "/x"), (⟨true, none, false⟩, str "//a/y"),
        (⟨true, none, false⟩, str "[Host: h]"), (⟨true, none, false⟩, str "/z?q")]
      (by decide)
      (by
        intro c hc
        simp only [List.mem_cons, List.mem_singleton, List.not_mem_nil, or_false] at hc
        rcases hc with rfl | rfl | rfl | rfl | rfl | rfl
        · exact Or.inl ⟨rfl, _, rfl⟩
        · exact Or.inr ⟨rfl, rfl⟩
        · exact Or.inl ⟨rfl, _, rfl⟩
        · exact Or.inl ⟨rfl, _, rfl⟩
        · exact Or.inr ⟨rfl, rfl⟩
        · exact Or.inl ⟨rfl, _, rfl⟩)).2.2.1⟩

/-- C5, refuted as stated: with the cancellation signal tripped before the call and the
outlet ready, the `select` may pick the send; then `Decode` of `/x` returns success, the
descriptor is sent and the count goes from 0 to 1. -/
theorem C5_counterexample :
    (⟨true, some .Canceled, true⟩ : SelectEnv).ctxErr = some .Canceled ∧
      (Decode newDecoder ⟨true, some .Canceled, true⟩ (str "/x")).2 = .ok ∧
      (Decode newDecoder ⟨true, some .Canceled, true⟩ (str "/x")).2
        ≠ .err (.Cancelled .Canceled) ∧
      (Decode newDecoder ⟨true, some .Canceled, true⟩ (str "/x")).1.sink.length = 1 ∧
      newDecoder.sink.length = 0 ∧
      (Decode newDecoder ⟨true, some .Canceled, true⟩ (str "/x")).1.ammoNum = 1 ∧
      newDecoder.ammoNum = 0 := by
  decide

/-- C5, amended: let the cancellation signal be tripped before `Decode` is called on a URI
line that parses, in a reachable decoder state. If the outlet cannot accept the send, or the
`select` picks the cancellation case, then `Decode` fails with `Cancelled` (the error of the
context), no descriptor is sent and the count is unchanged. If the outlet is ready and the
`select` picks the send, then the call returns success, one descriptor is sent and the
count is incremented (`ammoNum++` on a Go `int`), which is plus one as long as the result is
below `2^31`. -/
theorem C5_cancelled_before_uri_line (d : decoder) (env : SelectEnv) (line : Bytes)
    (e : CtxError) (hd : Reachable d) (huri : line.head? = some 47)
    (hparse : ∃ req, NewRequest (str "GET") line = .ok req) (hctx : env.ctxErr = some e) :
    (env.sinkReady = false ∨ env.pickSend = false →
        (Decode d env line).2 = .err (.Cancelled e) ∧ (Decode d env line).1.sink = d.sink ∧
          (Decode d env line).1.ammoNum = d.ammoNum) ∧
      (env.sinkReady = true ∧ env.pickSend = true →
        (Decode d env line).2 = .ok ∧
          (∃ sh, (Decode d env line).1.sink = d.sink ++ [sh] ∧ BuiltFrom sh line) ∧
          (Decode d env line).1.ammoNum = wrapInt d.intBits (d.ammoNum + 1) ∧
          (d.ammoNum + 1 < 2147483648 → (Decode d env line).1.ammoNum = d.ammoNum + 1)) := by
  have hbits := Reachable_intBits d hd
  have hcount := Reachable_count d hd
  obtain ⟨req0, hreq⟩ := hparse
  obtain ⟨req, hm⟩ := mergeHeaders_isSome d.header.entries req0 (Reachable_SingleValued d hd)
  rw [Decode_uri _ _ _ huri]
  unfold decodeURI
  simp only [hreq, hm, hctx]
  constructor
  · intro h
    have hc : ¬ (env.sinkReady = true ∧ env.pickSend = true) := by
      rcases h with h | h <;> simp [h]
    rw [if_neg hc]
    exact ⟨rfl, rfl, rfl⟩
  · intro h
    rw [if_pos h]
    refine ⟨rfl, ⟨_, rfl, BuiltFrom_of_merge _ _ req0 req hreq hm⟩, rfl, ?_⟩
    intro hlt
    show wrapInt d.intBits (d.ammoNum + 1) = d.ammoNum + 1
    rw [hcount] at hlt ⊢
    exact wrapInt_succ_small _ hbits _ hlt

/-- C5 amended, on a fresh decoder and the line `/x`, the outlet not ready. -/
theorem C5_witness :
    (Decode newDecoder ⟨false, some .Canceled, true⟩ (str "/x")).2
        = .err (.Cancelled .Canceled) ∧
      (Decode newDecoder ⟨false, some .Canceled, true⟩ (str "/x")).1.sink = newDecoder.sink ∧
      (Decode newDecoder ⟨false, some .Canceled, true⟩ (str "/x")).1.ammoNum
        = newDecoder.ammoNum :=
  (C5_cancelled_before_uri_line newDecoder ⟨false, some .Canceled, true⟩ (str "/x") .Canceled
    Reachable_newDecoder rfl ⟨_, rfl⟩ rfl).1 (Or.inl rfl)

/-- C6: every call of `Decode` that returns an error leaves the header map and the delivered
count as they were and sends nothing to the outlet. -/
theorem C6_error_return_changes_nothing (d d1 : decoder) (env : SelectEnv) (line : Bytes)
    (e : DecodeError) (h : Decode d env line = (d1, .err e)) :
    d1.header = d.header ∧ d1.ammoNum = d.ammoNum ∧ d1.sink = d.sink := by
  rw [Decode_eq] at h
  cases line with
  | nil => simp only [Prod.mk.injEq] at h; rw [← h.1]; exact ⟨rfl, rfl, rfl⟩
  | cons c rest =>
    simp only at h
    split at h
    · obtain ⟨h1, h2, h3⟩ := decodeURI_err d d1 env _ e h
      exact ⟨h1, h3, h2⟩
    · split at h
      · rw [decodeHeader_err d d1 _ e h]; exact ⟨rfl, rfl, rfl⟩
      · simp only [Prod.mk.injEq] at h; rw [← h.1]; exact ⟨rfl, rfl, rfl⟩

/-- C6, on a decoder that holds the header `X-Trace`: the six malformed lines of the
specification and a cancelled URI line, each with its error kind and the unchanged state. -/
theorem C6_witness :
    ((Decode (Decode newDecoder ⟨true, none, false⟩ (str "[X-Trace: 1]")).1
          ⟨true, none, false⟩ (str "")).2 = .err .EmptyLine ∧
      (Decode (Decode newDecoder ⟨true, none, false⟩ (str "[X-Trace: 1]")).1
          ⟨true, none, false⟩ (str "x/y")).2 = .err .MalformedLine ∧
      (Decode (Decode newDecoder ⟨true, none, false⟩ (str "[X-Trace: 1]")).1
          ⟨true, none, false⟩ (str "[abc")).2 = .err .MalformedHeaderLine ∧
      (Decode (Decode newDecoder ⟨true, none, false⟩ (str "[X-Trace: 1]")).1
          ⟨true, none, false⟩ (str "[abc]")).2 = .err .MissingColon ∧
      (Decode (Decode newDecoder ⟨true, none, false⟩ (str "[X-Trace: 1]")).1
          ⟨true, none, false⟩ (str "[ :v]")).2 = .err .MissingHeaderKey ∧
      (Decode (Decode newDecoder ⟨true, none, false⟩ (str "[X-Trace: 1]")).1
          ⟨true, none, false⟩ (str "/a b%")).2
        = .err (.UriParseError (.parseError (.escapeError (str "%")))) ∧
      (Decode (Decode newDecoder ⟨true, none, false⟩ (str "[X-Trace: 1]")).1
          ⟨false, some .Canceled, false⟩ (str "/a")).2 = .err (.Cancelled .Canceled)) ∧
      (∀ c ∈ [((⟨true, none, false⟩ : SelectEnv), str ""), (⟨true, none, false⟩, str "x/y"),
          (⟨true, none, false⟩, str "[abc"), (⟨true, none, false⟩, str "[abc]"),
          (⟨true, none, false⟩, str "[ :v]"), (⟨true, none, false⟩, str "/a b%"),
          (⟨false, some .Canceled, false⟩, str "/a")],
        (Decode (Decode newDecoder ⟨true, none, false⟩ (str "[X-Trace: 1]")).1 c.1 c.2).1.header
            = (Decode newDecoder ⟨true, none, false⟩ (str "[X-Trace: 1]")).1.header ∧
          (Decode (Decode newDecoder ⟨true, none, false⟩ (str "[X-Trace: 1]")).1
            c.1 c.2).1.ammoNum
            = (Decode newDecoder ⟨true, none, false⟩ (str "[X-Trace: 1]")).1.ammoNum ∧
          (Decode (Decode newDecoder ⟨true, none, false⟩ (str "[X-Trace: 1]")).1 c.1 c.2).1.sink
            = (Decode newDecoder ⟨true, none, false⟩ (str "[X-Trace: 1]")).1.sink) := by
  refine ⟨by decide, ?_⟩
  intro c hc
  simp only [List.mem_cons, List.mem_singleton, List.not_mem_nil, or_false] at hc
  rcases hc with rfl | rfl | rfl | rfl | rfl | rfl | rfl
  · exact C6_error_return_changes_nothing _ _ ⟨true, none, false⟩ (str "") .EmptyLine rfl
  · exact C6_error_return_changes_nothing _ _ ⟨true, none, false⟩ (str "x/y") .MalformedLine rfl
  · exact C6_error_return_changes_nothing _ _ ⟨true, none, false⟩ (str "[abc")
      .MalformedHeaderLine rfl
  · exact C6_error_return_changes_nothing _ _ ⟨true, none, false⟩ (str "[abc]") .MissingColon rfl
  · exact C6_error_return_changes_nothing _ _ ⟨true, none, false⟩ (str "[ :v]")
      .MissingHeaderKey rfl
  · exact C6_error_return_changes_nothing _ _ ⟨true, none, false⟩ (str "/a b%")
      (.UriParseError (.parseError (.escapeError (str "%")))) rfl
  · exact C6_error_return_changes_nothing _ _ ⟨false, some .Canceled, false⟩ (str "/a")
      (.Cancelled .Canceled) rfl

/-- C7: for every line that begins with `[`, `Decode` decides in this order. It fails with
`MalformedHeaderLine` when the line is shorter than 3 bytes or its last byte is not `]`;
otherwise it fails with `MissingColon` when the text between the brackets holds no `:`;
otherwise it fails with `MissingHeaderKey` when the text before the first `:` trims to the
empty string; otherwise it returns success. No other outcome exists. -/
theorem C7_header_line_checks_in_order (d : decoder) (env : SelectEnv) (line : Bytes)
    (h0 : line.head? = some 91) :
    (Decode d env line).2 =
      if line.length < 3 ∨ line.getLast? ≠ some 93 then .err .MalformedHeaderLine
      else if 58 ∉ bracketText line then .err .MissingColon
      else if TrimSpace (beforeFirst 58 (bracketText line)) = [] then .err .MissingHeaderKey
      else .ok := by
  rw [Decode_header d env line h0, decodeHeader_eq d line h0]
  split
  · rfl
  · split
    · rfl
    · split <;> rfl

/-- C7, on `[abc`, `[abc]`, `[ :v]` and `[a:b]`. -/
theorem C7_witness :
    (Decode newDecoder ⟨true, none, false⟩ (str "[abc")).2 = .err .MalformedHeaderLine ∧
      (Decode newDecoder ⟨true, none, false⟩ (str "[abc]")).2 = .err .MissingColon ∧
      (Decode newDecoder ⟨true, none, false⟩ (str "[ :v]")).2 = .err .MissingHeaderKey ∧
      (Decode newDecoder ⟨true, none, false⟩ (str "[a:b]")).2 = .ok :=
  ⟨(C7_header_line_checks_in_order newDecoder ⟨true, none, false⟩ (str "[abc") rfl).trans
      (by decide),
    (C7_header_line_checks_in_order newDecoder ⟨true, none, false⟩ (str "[abc]") rfl).trans
      (by decide),
    (C7_header_line_checks_in_order newDecoder ⟨true, none, false⟩ (str "[ :v]") rfl).trans
      (by decide),
    (C7_header_line_checks_in_order newDecoder ⟨true, none, false⟩ (str "[a:b]") rfl).trans
      (by decide)⟩

/-- C8: `Decode` classifies a line by its first byte alone. It fails with `EmptyLine` exactly
when the line is empty; it fails with `MalformedLine` exactly when the line is not empty and
its first byte is neither `[` nor `/`; on a first byte `[` its result is that of
`decodeHeader` on the whole line, and on a first byte `/` that of `decodeURI` on the whole
line. -/
theorem C8_classification_by_first_byte (d : decoder) (env : SelectEnv) (line : Bytes) :
    ((Decode d env line).2 = .err .EmptyLine ↔ line = []) ∧
      ((Decode d env line).2 = .err .MalformedLine ↔
        line ≠ [] ∧ line.head? ≠ some 91 ∧ line.head? ≠ some 47) ∧
      (line.head? = some 91 → Decode d env line = decodeHeader d line) ∧
      (line.head? = some 47 → Decode d env line = decodeURI d env line) := by
  refine ⟨?_, ?_, Decode_header d env line, Decode_uri d env line⟩
  · cases line with
    | nil => simp [Decode]
    | cons c rest =>
      rw [Decode_eq]
      simp only [reduceCtorEq, iff_false]
      split
      · rcases decodeURI_result d env (c :: rest) with ⟨e, h⟩ | ⟨e, h⟩ | h | h | h <;>
          rw [h] <;> simp
      · split
        · rcases decodeHeader_result d (c :: rest) with h | h | h | h <;> rw [h] <;> simp
        · simp
  · cases line with
    | nil => simp [Decode]
    | cons c rest =>
      rw [Decode_eq]
      simp only [ne_eq, reduceCtorEq, not_false_eq_true, List.head?_cons, Option.some.injEq,
        true_and]
      split
      · rename_i hc
        rcases decodeURI_result d env (c :: rest) with ⟨e, h⟩ | ⟨e, h⟩ | h | h | h <;>
          rw [h] <;> simp [hc]
      · rename_i hc
        split
        · rename_i hc2
          rcases decodeHeader_result d (c :: rest) with h | h | h | h <;>
            rw [h] <;> simp [hc2]
        · rename_i hc2
          simp [hc, hc2]

/-- C9, refuted as stated: on the empty input `Decode` fails with `EmptyLine`, which is not
`MalformedLine`, the error of a line such as `x/y`; the two messages differ. -/
theorem C9_counterexample :
    (Decode newDecoder ⟨true, none, false⟩ []).2 = .err .EmptyLine ∧
      (Decode newDecoder ⟨true, none, false⟩ []).2 ≠ .err .MalformedLine ∧
      (Decode newDecoder ⟨true, none, false⟩ (str "x/y")).2 = .err .MalformedLine ∧
      DecodeError.message .EmptyLine ≠ DecodeError.message .MalformedLine := by
  decide

/-- C9, amended: for empty input `Decode` fails with `EmptyLine`, whose message is
`empty line`; this is another error kind than `MalformedLine`, whose message says that every
line should begin with `[` or `/` and which `Decode` returns for every non-empty line whose
first byte is neither `[` nor `/`. Either way the decoder is left as it was. -/
theorem C9_empty_input_is_EmptyLine (d : decoder) (env : SelectEnv) :
    Decode d env [] = (d, .err .EmptyLine) ∧
      DecodeError.message .EmptyLine = "empty line" ∧
      DecodeError.EmptyLine ≠ DecodeError.MalformedLine ∧
      DecodeError.message .MalformedLine = "every line should begin with '[' or '/'" ∧
      ∀ c rest, c = 91 ∨ c = 47 ∨ Decode d env (c :: rest) = (d, .err .MalformedLine) := by
  refine ⟨rfl, rfl, by decide, rfl, ?_⟩
  intro c rest
  by_cases h1 : c = 91
  · exact Or.inl h1
  · by_cases h2 : c = 47
    · exact Or.inr (Or.inl h2)
    · right; right
      simp [Decode, h1, h2]

/-- C10, refuted as stated: the keys `a b` and `A B` are equal up to ASCII letter case, both
header lines decode with success, yet the header map then holds two entries, `a b` with the
first value and `A B` with the second. -/
theorem C10_counterexample :
    (TrimSpace (str "a b")).map asciiLower = (TrimSpace (str "A B")).map asciiLower ∧
      (DecodeAll newDecoder [(⟨true, none, false⟩, headerLine (str "a b") (str " 1")),
        (⟨true, none, false⟩, headerLine (str "A B") (str " 2"))]).2 = [.ok, .ok] ∧
      (DecodeAll newDecoder [(⟨true, none, false⟩, headerLine (str "a b") (str " 1")),
        (⟨true, none, false⟩, headerLine (str "A B") (str " 2"))]).1.header.entries
        = [(str "A B", [str "2"]), (str "a b", [str "1"])] ∧
      (DecodeAll newDecoder [(⟨true, none, false⟩, headerLine (str "a b") (str " 1")),
        (⟨true, none, false⟩, headerLine (str "A B") (str " 2"))]).1.header.lookup (str "a b")
        = some [str "1"] := by
  decide

/-- C10, amended: header keys made of token bytes only (letters, digits and the punctuation
that `validHeaderFieldByte` admits) are compared without regard to ASCII letter case, last
write wins. For every decoder state and every two header lines whose trimmed keys are
non-empty, are made of token bytes and are equal up to ASCII letter case, both lines decode
with success, both keys have the same canonical form, and afterwards the header map has
exactly one entry under that canonical key, holding the trimmed value of the second line. -/
theorem C10_token_keys_fold_case_last_write_wins (d : decoder) (env1 env2 : SelectEnv)
    (k1 v1 k2 v2 : Bytes) (hc1 : 58 ∉ k1) (hc2 : 58 ∉ k2) (hk1 : TrimSpace k1 ≠ [])
    (htok : (TrimSpace k1).all validHeaderFieldByte = true)
    (hfold : EqualFoldASCII (TrimSpace k1) (TrimSpace k2)) :
    (Decode d env1 (headerLine k1 v1)).2 = .ok ∧
      (Decode (Decode d env1 (headerLine k1 v1)).1 env2 (headerLine k2 v2)).2 = .ok ∧
      CanonicalMIMEHeaderKey (TrimSpace k1) = CanonicalMIMEHeaderKey (TrimSpace k2) ∧
      (Decode (Decode d env1 (headerLine k1 v1)).1 env2 (headerLine k2 v2)).1.header.entries.filter
          (fun e => e.1 = CanonicalMIMEHeaderKey (TrimSpace k1))
        = [(CanonicalMIMEHeaderKey (TrimSpace k1), [TrimSpace v2])] ∧
      (Decode (Decode d env1 (headerLine k1 v1)).1 env2 (headerLine k2 v2)).1.header.lookup
          (CanonicalMIMEHeaderKey (TrimSpace k1)) = some [TrimSpace v2] := by
  have hk2 : TrimSpace k2 ≠ [] := by
    intro h
    rw [EqualFoldASCII, h] at hfold
    cases hk : TrimSpace k1 with
    | nil => exact hk1 hk
    | cons a r => rw [hk] at hfold; simp at hfold
  have hcanon := CanonicalMIMEHeaderKey_fold _ _ hfold htok
  rw [Decode_headerLine, decodeHeader_headerLine d k1 v1 hc1, if_neg hk1]
  simp only
  rw [Decode_headerLine, decodeHeader_headerLine _ k2 v2 hc2, if_neg hk2]
  simp only [Header.Set]
  rw [hcanon]
  exact ⟨trivial, trivial, rfl, Header.assign_entries_filter _ _ _,
    Header.lookup_assign_self _ _ _⟩

/-- C10 amended, on the header lines `[x-trace: 1]` and `[X-TRACE: 2]`. -/
theorem C10_witness :
    (Decode newDecoder ⟨true, none, false⟩ (headerLine (str "x-trace") (str " 1"))).2 = .ok ∧
      (Decode (Decode newDecoder ⟨true, none, false⟩ (headerLine (str "x-trace") (str " 1"))).1
        ⟨true, none, false⟩ (headerLine (str "X-TRACE") (str " 2"))).2 = .ok ∧
      CanonicalMIMEHeaderKey (TrimSpace (str "x-trace"))
        = CanonicalMIMEHeaderKey (TrimSpace (str "X-TRACE")) ∧
      (Decode (Decode newDecoder ⟨true, none, false⟩ (headerLine (str "x-trace") (str " 1"))).1
        ⟨true, none, false⟩ (headerLine (str "X-TRACE") (str " 2"))).1.header.entries.filter
          (fun e => e.1 = CanonicalMIMEHeaderKey (TrimSpace (str "x-trace")))
        = [(CanonicalMIMEHeaderKey (TrimSpace (str "x-trace")), [TrimSpace (str " 2")])] ∧
      (Decode (Decode newDecoder ⟨true, none, false⟩ (headerLine (str "x-trace") (str " 1"))).1
        ⟨true, none, false⟩ (headerLine (str "X-TRACE") (str " 2"))).1.header.lookup
          (CanonicalMIMEHeaderKey (TrimSpace (str "x-trace"))) = some [TrimSpace (str " 2")] :=
  C10_token_keys_fold_case_last_write_wins newDecoder ⟨true, none, false⟩ ⟨true, none, false⟩
    (str "x-trace") (str " 1") (str "X-TRACE") (str " 2") (by decide) (by decide) (by decide)
    (by decide) (by show _ = _; decide)

/-- C11: from every decoder state, `ResetHeader` leaves the header map without any entry,
and leaves the delivered count, the outlet (nothing is sent) and the pool as they were; the
cancellation context is not among the things it can reach. -/
theorem C11_ResetHeader_clears_only_the_header_map (d : decoder) :
    (ResetHeader d).header.entries = [] ∧ (∀ k, (ResetHeader d).header.lookup k = none) ∧
      (ResetHeader d).ammoNum = d.ammoNum ∧ (ResetHeader d).sink = d.sink ∧
      (ResetHeader d).ammoPool = d.ammoPool := by
  refine ⟨ResetHeader_entries d, ?_, rfl, rfl, rfl⟩
  intro k
  rw [ResetHeader_header]
  rfl

/-- C12: for every decoder state, after `ResetHeader` a URI line that decodes with success
(it parses and the descriptor is delivered) sends a descriptor whose header set has no entry
and whose request, both host fields included, is the one `http.NewRequest` makes of the line
alone: nothing of the headers held before the reset, a `Host` header included, is in it. -/
theorem C12_reset_then_uri_line_carries_no_header (d d2 : decoder) (env : SelectEnv)
    (line : Bytes) (huri : line.head? = some 47)
    (hnext : Decode (ResetHeader d) env line = (d2, .ok)) :
    ∃ sh req, d2.sink = d.sink ++ [sh] ∧ sh.req = some req ∧ sh.tag = str "REQUEST" ∧
      req.Header.entries = [] ∧ NewRequest (str "GET") line = .ok req ∧
      req.Host = req.URL.Host := by
  rw [Decode_uri _ _ _ huri] at hnext
  obtain ⟨req0, req, hreq, hm, hd2, _, _⟩ := decodeURI_ok _ _ _ _ hnext
  rw [ResetHeader_entries] at hm
  simp only [mergeHeaders, Option.some.injEq] at hm
  subst hm
  obtain ⟨h1, h2⟩ := NewRequest_ok _ _ _ hreq
  refine ⟨⟨some req0, str "REQUEST"⟩, req0, ?_, rfl, rfl, ?_, hreq, h2⟩
  · rw [hd2]; rfl
  · rw [h1]; rfl

/-- C12, on a decoder that holds `Host` and `X-Trace`, reset and then given `/foo`. -/
theorem C12_witness :
    ∃ sh req,
      (Decode (ResetHeader (DecodeAll newDecoder
          [(⟨true, none, false⟩, str "[Host: example.com]"),
            (⟨true, none, false⟩, str "[X-Trace: 1]")]).1)
        ⟨true, none, false⟩ (str "/foo")).1.sink
        = (DecodeAll newDecoder [(⟨true, none, false⟩, str "[Host: example.com]"),
            (⟨true, none, false⟩, str "[X-Trace: 1]")]).1.sink ++ [sh] ∧
      sh.req = some req ∧ sh.tag = str "REQUEST" ∧ req.Header.entries = [] ∧
      NewRequest (str "GET") (str "/foo") = .ok req ∧ req.Host = req.URL.Host :=
  C12_reset_then_uri_line_carries_no_header
    (DecodeAll newDecoder [(⟨true, none, false⟩, str "[Host: example.com]"),
      (⟨true, none, false⟩, str "[X-Trace: 1]")]).1 _ ⟨true, none, false⟩ (str "/foo") rfl rfl

/-- C13: a fresh decoder with no cancellation and an accepting outlet, fed the lines
`[Host: example.com]`, `[X-Trace: 1]`, `/foo?q=1`, `/bar` in that order, returns success four
times and sends exactly two descriptors, in order: path `/foo` with query `q=1`, then path
`/bar` with no query; both have `example.com` as URL host and as request host, both have
the one header `X-Trace` with the one value `1` and no `Host` header, both have method
`GET` and tag `REQUEST`; the delivered count ends at 2. -/
theorem C13_end_to_end :
    (DecodeAll newDecoder [(⟨true, none, false⟩, str "[Host: example.com]"),
        (⟨true, none, false⟩, str "[X-Trace: 1]"), (⟨true, none, false⟩, str "/foo?q=1"),
        (⟨true, none, false⟩, str "/bar")]).2 = [.ok, .ok, .ok, .ok] ∧
      (DecodeAll newDecoder [(⟨true, none, false⟩, str "[Host: example.com]"),
        (⟨true, none, false⟩, str "[X-Trace: 1]"), (⟨true, none, false⟩, str "/foo?q=1"),
        (⟨true, none, false⟩, str "/bar")]).1.sink.map
          (fun sh => sh.req.map (fun r =>
            (r.URL.Path, r.URL.RawQuery, r.URL.ForceQuery, r.URL.Host, r.Host)))
        = [some (str "/foo", str "q=1", false, str "example.com", str "example.com"),
            some (str "/bar", str "", false, str "example.com", str "example.com")] ∧
      (DecodeAll newDecoder [(⟨true, none, false⟩, str "[Host: example.com]"),
        (⟨true, none, false⟩, str "[X-Trace: 1]"), (⟨true, none, false⟩, str "/foo?q=1"),
        (⟨true, none, false⟩, str "/bar")]).1.sink.map
          (fun sh => sh.req.map (fun r =>
            (r.Header.entries, r.Header.lookup (str "X-Trace"), r.Header.lookup (str "Host"))))
        = [some ([(str "X-Trace", [str "1"])], some [str "1"], none),
            some ([(str "X-Trace", [str "1"])], some [str "1"], none)] ∧
      (DecodeAll newDecoder [(⟨true, none, false⟩, str "[Host: example.com]"),
        (⟨true, none, false⟩, str "[X-Trace: 1]"), (⟨true, none, false⟩, str "/foo?q=1"),
        (⟨true, none, false⟩, str "/bar")]).1.sink.map
          (fun sh => (sh.req.map (fun r => r.Method), sh.tag))
        = [(some (str "GET"), str "REQUEST"), (some (str "GET"), str "REQUEST")] ∧
      (DecodeAll newDecoder [(⟨true, none, false⟩, str "[Host: example.com]"),
        (⟨true, none, false⟩, str "[X-Trace: 1]"), (⟨true, none, false⟩, str "/foo?q=1"),
        (⟨true, none, false⟩, str "/bar")]).1.ammoNum = 2 := by
  exact ⟨by decide, rfl, rfl, by decide, by decide⟩

/-- C14: in every state reachable from a fresh decoder, every entry of the header map has a
non-empty key, the key is in canonical form (canonicalizing it gives it back) and exactly
one value is stored; so a `Host` entry always has a first value and no call of `Decode`
panics on `v[0]`. -/
theorem C14_header_entries_well_formed (d : decoder) (hr : Reachable d) :
    (∀ e ∈ d.header.entries,
        e.1 ≠ [] ∧ CanonicalMIMEHeaderKey e.1 = e.1 ∧ ∃ v, e.2 = [v]) ∧
      (∀ vs, d.header.lookup (str "Host") = some vs → ∃ v0, vs = [v0]) ∧
      ∀ env line, (Decode d env line).2 ≠ .panic := by
  have hs := Reachable_SingleValued d hr
  refine ⟨fun e he => ⟨(Reachable_keys d hr e he).1, (Reachable_keys d hr e he).2, hs e he⟩,
    ?_, fun env line => Decode_no_panic d env line hs⟩
  intro vs hvs
  exact hs _ (Header.mem_of_lookup _ _ _ hvs)

/-- C14, in the state reached by `[host: a]`, a reset, `[a b: 1]`, `[x-y: 2]` and `/p`. -/
theorem C14_witness :
    (∀ e ∈ (DecodeAll (ResetHeader (Decode newDecoder ⟨true, none, false⟩
          (str "[host: a]")).1)
        [(⟨true, none, false⟩, str "[a b: 1]"), (⟨true, none, false⟩, str "[x-y: 2]"),
          (⟨true, none, false⟩, str "/p")]).1.header.entries,
        e.1 ≠ [] ∧ CanonicalMIMEHeaderKey e.1 = e.1 ∧ ∃ v, e.2 = [v]) ∧
      (DecodeAll (ResetHeader (Decode newDecoder ⟨true, none, false⟩ (str "[host: a]")).1)
        [(⟨true, none, false⟩, str "[a b: 1]"), (⟨true, none, false⟩, str "[x-y: 2]"),
          (⟨true, none, false⟩, str "/p")]).1.header.entries
        = [(str "X-Y", [str "2"]), (str "a b", [str "1"])] :=
  ⟨(C14_header_entries_well_formed _
      (Reachable.decode _ ⟨true, none, false⟩ (str "/p")
        (Reachable.decode _ ⟨true, none, false⟩ (str "[x-y: 2]")
          (Reachable.decode _ ⟨true, none, false⟩ (str "[a b: 1]")
            (Reachable.reset _
              (Reachable.decode _ ⟨true, none, false⟩ (str "[host: a]")
                Reachable_newDecoder)))))).1,
    by decide⟩

/-- C15, refuted as stated: on a platform whose `int` has 32 bits, the state reached from a
fresh decoder by `2^31` delivered URI lines `/x` is reachable, the outlet has accepted
`2^31` descriptors, and the delivered count `ammoNum` is `-2^31`. -/
theorem C15_counterexample :
    Reachable (DecodeAll (newDecoderOn 32)
        (List.replicate 2147483648 (⟨true, none, false⟩, str "/x"))).1 ∧
      ((DecodeAll (newDecoderOn 32)
        (List.replicate 2147483648 (⟨true, none, false⟩, str "/x"))).1.sink.length : Int)
        = 2147483648 ∧
      (DecodeAll (newDecoderOn 32)
        (List.replicate 2147483648 (⟨true, none, false⟩, str "/x"))).1.ammoNum
        = -2147483648 := by
  obtain ⟨_, h2, h3⟩ := overflow_run
  refine ⟨Reachable_DecodeAll _ _ (Reachable.fresh 32 (Or.inl rfl)), ?_, h3⟩
  rw [h2]
  rfl

/-- C15, amended: in every state reachable from a fresh decoder (failing, cancelled and
blocked calls included) the delivered count `ammoNum` is the number of descriptors sent on
the outlet as a Go `int` (wrapped around in two's complement), which is that number itself
as long as it is below `2^31`. A call of `Decode` changes the count exactly when it is a URI
line whose descriptor the outlet accepts; then the call returns success and the count has
been incremented (`ammoNum++`), which is plus one as long as the result is below `2^31`;
every other call leaves count and outlet as they were. -/
theorem C15_count_is_number_delivered (d : decoder) (hr : Reachable d) :
    d.ammoNum = wrapInt d.intBits d.sink.length ∧
      (d.sink.length < 2147483648 → d.ammoNum = d.sink.length) ∧
      ∀ env line,
        ((Decode d env line).1.ammoNum ≠ d.ammoNum ↔
          (line.head? = some 47 ∧ ∃ sh, (Decode d env line).1.sink = d.sink ++ [sh])) ∧
        ((Decode d env line).1.ammoNum ≠ d.ammoNum →
          (Decode d env line).2 = .ok ∧
          (Decode d env line).1.ammoNum = wrapInt d.intBits (d.ammoNum + 1) ∧
          (d.ammoNum + 1 < 2147483648 → (Decode d env line).1.ammoNum = d.ammoNum + 1)) ∧
        ((Decode d env line).1.ammoNum = d.ammoNum → (Decode d env line).1.sink = d.sink) := by
  have hbits := Reachable_intBits d hr
  have hc := Reachable_count d hr
  refine ⟨hc, ?_, ?_⟩
  · intro hlt
    rw [hc]
    apply wrapInt_small _ hbits
    · omega
    · omega
  · intro env line
    rcases Decode_cases d env line with ⟨hok, h47, ⟨sh, hsink⟩, hnum⟩ | ⟨hsink, hnum⟩
    · have hne : (Decode d env line).1.ammoNum ≠ d.ammoNum := by
        rw [hnum, hc]
        exact wrapInt_succ_ne _ hbits _
      refine ⟨⟨fun _ => ⟨h47, sh, hsink⟩, fun _ => hne⟩, fun _ => ⟨hok, hnum, ?_⟩,
        fun h => absurd h hne⟩
      intro hlt
      rw [hnum, hc]
      rw [hc] at hlt
      exact wrapInt_succ_small _ hbits _ hlt
    · refine ⟨⟨fun h => absurd hnum h, fun h => ?_⟩, fun h => absurd hnum h, fun _ => hsink⟩
      obtain ⟨_, sh, hs⟩ := h
      rw [hsink] at hs
      have := congrArg List.length hs
      simp at this

/-- C15 amended, on a 32-bit platform, in the state reached by a header line, a delivered URI
line, a cancelled one and one that does not parse: count 1, one descriptor sent. -/
theorem C15_witness :
    (DecodeAll (newDecoderOn 32) [(⟨true, none, false⟩, str "[a: 1]"),
        (⟨true, none, false⟩, str "/p"), (⟨false, some .Canceled, false⟩, str "/q"),
        (⟨true, none, false⟩, str "/a b%")]).1.ammoNum
      = wrapInt 32 (DecodeAll (newDecoderOn 32) [(⟨true, none, false⟩, str "[a: 1]"),
        (⟨true, none, false⟩, str "/p"), (⟨false, some .Canceled, false⟩, str "/q"),
        (⟨true, none, false⟩, str "/a b%")]).1.sink.length ∧
      (DecodeAll (newDecoderOn 32) [(⟨true, none, false⟩, str "[a: 1]"),
        (⟨true, none, false⟩, str "/p"), (⟨false, some .Canceled, false⟩, str "/q"),
        (⟨true, none, false⟩, str "/a b%")]).1.ammoNum = 1 ∧
      (DecodeAll (newDecoderOn 32) [(⟨true, none, false⟩, str "[a: 1]"),
        (⟨true, none, false⟩, str "/p"), (⟨false, some .Canceled, false⟩, str "/q"),
        (⟨true, none, false⟩, str "/a b%")]).1.sink.length = 1 :=
  ⟨(C15_count_is_number_delivered _
      (Reachable.decode _ ⟨true, none, false⟩ (str "/a b%")
        (Reachable.decode _ ⟨false, some .Canceled, false⟩ (str "/q")
          (Reachable.decode _ ⟨true, none, false⟩ (str "/p")
            (Reachable.decode _ ⟨true, none, false⟩ (str "[a: 1]")
              (Reachable.fresh 32 (Or.inl rfl))))))).1,
    by decide, by decide⟩

/-- C16: a header line that `Decode` accepts changes only the entry of the header map under
its canonicalized key. That entry then holds the one trimmed value of the line, whatever it
held before (replaced, not appended to); every other key reads as before; the delivered
count, the outlet and the pool are as before; the call returns success. -/
theorem C16_header_line_changes_one_entry (d d1 : decoder) (env : SelectEnv) (line : Bytes)
    (h0 : line.head? = some 91) (hok : (Decode d env line).2 = .ok)
    (hd1 : d1 = (Decode d env line).1) :
    d1.header.lookup (CanonicalMIMEHeaderKey (TrimSpace (beforeFirst 58 (bracketText line))))
        = some [TrimSpace (afterFirst 58 (bracketText line))] ∧
      d1.header.entries.filter
          (fun e => e.1 = CanonicalMIMEHeaderKey (TrimSpace (beforeFirst 58 (bracketText line))))
        = [(CanonicalMIMEHeaderKey (TrimSpace (beforeFirst 58 (bracketText line))),
            [TrimSpace (afterFirst 58 (bracketText line))])] ∧
      (∀ k, k ≠ CanonicalMIMEHeaderKey (TrimSpace (beforeFirst 58 (bracketText line))) →
        d1.header.lookup k = d.header.lookup k) ∧
      d1.ammoNum = d.ammoNum ∧ d1.sink = d.sink ∧ d1.ammoPool = d.ammoPool := by
  rw [Decode_header d env line h0] at hok hd1
  obtain ⟨_, heq⟩ := decodeHeader_ok_eq d line h0 hok
  rw [heq] at hd1
  subst hd1
  exact ⟨Header.lookup_assign_self _ _ _, Header.assign_entries_filter _ _ _,
    fun k hk => Header.lookup_assign_ne _ _ _ _ hk, rfl, rfl, rfl⟩

/-- C16, on a decoder holding `X-Trace: 1` and `Host`, given `[x-trace: 2]`. -/
theorem C16_witness :
    (Decode (DecodeAll newDecoder [(⟨true, none, false⟩, str "[X-Trace: 1]"),
        (⟨true, none, false⟩, str "[Host: h]")]).1 ⟨true, none, false⟩
        (str "[x-trace: 2]")).1.header.entries
      = [(str "X-Trace", [str "2"]), (str "Host", [str "h"])] ∧
      (Decode (DecodeAll newDecoder [(⟨true, none, false⟩, str "[X-Trace: 1]"),
        (⟨true, none, false⟩, str "[Host: h]")]).1 ⟨true, none, false⟩
        (str "[x-trace: 2]")).1.header.lookup
          (CanonicalMIMEHeaderKey (TrimSpace (beforeFirst 58 (bracketText (str "[x-trace: 2]")))))
      = some [TrimSpace (afterFirst 58 (bracketText (str "[x-trace: 2]")))] :=
  ⟨by decide,
    (C16_header_line_changes_one_entry
      (DecodeAll newDecoder [(⟨true, none, false⟩, str "[X-Trace: 1]"),
        (⟨true, none, false⟩, str "[Host: h]")]).1 _ ⟨true, none, false⟩
      (str "[x-trace: 2]") rfl (by decide) rfl).1⟩

/-- C17: for every header line `[` k `:` v `]` in which `k`, the text before the first `:`,
trims to a non-empty key, `Decode` returns success and stores, under the canonical form of
the trimmed `k`, the trimmed `v`, where `v` is all the text after the first `:`: later
colons stay in the value, and a `v` that trims to the empty string is stored as the empty
string, not rejected. -/
theorem C17_split_at_first_colon (d : decoder) (env : SelectEnv) (k v : Bytes)
    (hcolon : 58 ∉ k) (hkey : TrimSpace k ≠ []) :
    Decode d env (headerLine k v)
        = ({ d with header := d.header.Set (TrimSpace k) (TrimSpace v) }, .ok) ∧
      beforeFirst 58 (bracketText (headerLine k v)) = k ∧
      afterFirst 58 (bracketText (headerLine k v)) = v ∧
      (Decode d env (headerLine k v)).1.header.lookup (CanonicalMIMEHeaderKey (TrimSpace k))
        = some [TrimSpace v] ∧
      (TrimSpace v = [] →
        (Decode d env (headerLine k v)).2 = .ok ∧
        (Decode d env (headerLine k v)).1.header.lookup (CanonicalMIMEHeaderKey (TrimSpace k))
          = some [[]]) := by
  have hD : Decode d env (headerLine k v)
      = ({ d with header := d.header.Set (TrimSpace k) (TrimSpace v) }, .ok) := by
    rw [Decode_headerLine, decodeHeader_headerLine d k v hcolon, if_neg hkey]
  have hl : (Decode d env (headerLine k v)).1.header.lookup
      (CanonicalMIMEHeaderKey (TrimSpace k)) = some [TrimSpace v] := by
    rw [hD]; exact Header.lookup_assign_self _ _ _
  refine ⟨hD, ?_, ?_, hl, fun hv => ⟨by rw [hD], by rw [hl, hv]⟩⟩
  · rw [bracketText_headerLine, beforeFirst_append_sep k v 58 hcolon]
  · rw [bracketText_headerLine, afterFirst_append_sep k v 58 hcolon]

/-- C17, on `[a: b:c]`, which stores `b:c` under `A`, and on `[a: ]`, which stores the empty
string. -/
theorem C17_witness :
    headerLine (str "a") (str " b:c") = str "[a: b:c]" ∧
      (Decode newDecoder ⟨true, none, false⟩ (str "[a: b:c]")).2 = .ok ∧
      (Decode newDecoder ⟨true, none, false⟩ (str "[a: b:c]")).1.header.lookup (str "A")
        = some [str "b:c"] ∧
      (Decode newDecoder ⟨true, none, false⟩ (str "[a: ]")).2 = .ok ∧
      (Decode newDecoder ⟨true, none, false⟩ (str "[a: ]")).1.header.lookup (str "A")
        = some [str ""] ∧
      (Decode newDecoder ⟨true, none, false⟩ (headerLine (str "a") (str " b:c"))).1.header.lookup
          (CanonicalMIMEHeaderKey (TrimSpace (str "a"))) = some [TrimSpace (str " b:c")] :=
  ⟨by decide, by decide, by decide, by decide, by decide,
    (C17_split_at_first_colon newDecoder ⟨true, none, false⟩ (str "a") (str " b:c")
      (by decide) (by decide)).2.2.2.1⟩

/-- C18, refuted as stated: on a fresh decoder, whose header map has no `Host` entry, the
line `//example.com/x` begins with `/`, decodes with success and is delivered, and the
descriptor has `example.com` as URL host and as request host, with path `/x`. -/
theorem C18_counterexample :
    (str "//example.com/x").head? = some 47 ∧
      newDecoder.header.lookup (str "Host") = none ∧
      (Decode newDecoder ⟨true, none, false⟩ (str "//example.com/x")).2 = .ok ∧
      (Decode newDecoder ⟨true, none, false⟩ (str "//example.com/x")).1.sink.map
          (fun sh => sh.req.map (fun r => (r.URL.Host, r.Host, r.URL.Path)))
        = [some (str "example.com", str "example.com", str "/x")] := by
  exact ⟨by decide, by decide, by decide, rfl⟩

/-- C18, amended: for every line that begins with `/` and, when it begins with `//`, begins
with `///`, and that decodes with success and is delivered while the header map has no
`Host` entry, the URL host component and the request host field of the descriptor are both
empty. -/
theorem C18_single_slash_line_has_no_host (d d1 : decoder) (env : SelectEnv) (line : Bytes)
    (h47 : line.head? = some 47)
    (hp : HasPrefix line [47, 47] = true → HasPrefix line [47, 47, 47] = true)
    (hno : d.header.lookup (str "Host") = none)
    (hok : Decode d env line = (d1, .ok)) :
    ∃ sh req, d1.sink = d.sink ++ [sh] ∧ sh.req = some req ∧
      req.URL.Host = [] ∧ req.Host = [] := by
  rw [Decode_uri _ _ _ h47] at hok
  obtain ⟨req0, req, hreq, hm, hd1, _, _⟩ := decodeURI_ok _ _ _ _ hok
  obtain ⟨g1, g2⟩ := NewRequest_Host_nil _ _ _ h47 hp hreq
  obtain ⟨f1, f2⟩ := mergeHeaders_host_none d.header.entries req0 req hm
    (Header.not_mem_of_lookup_none _ _ hno)
  refine ⟨⟨some req, str "REQUEST"⟩, req, ?_, rfl, ?_, ?_⟩
  · rw [hd1]
  · rw [f2, g1]
  · rw [f1, g2]

/-- C18 amended, on the lines `/foo?q=1` and `///x` given to a decoder that holds the header
`X-Trace`. -/
theorem C18_witness :
    (∃ sh req,
        (Decode (Decode newDecoder ⟨true, none, false⟩ (str "[X-Trace: 1]")).1
          ⟨true, none, false⟩ (str "/foo?q=1")).1.sink
          = (Decode newDecoder ⟨true, none, false⟩ (str "[X-Trace: 1]")).1.sink ++ [sh] ∧
        sh.req = some req ∧ req.URL.Host = [] ∧ req.Host = []) ∧
      ∃ sh req,
        (Decode (Decode newDecoder ⟨true, none, false⟩ (str "[X-Trace: 1]")).1
          ⟨true, none, false⟩ (str "///x")).1.sink
          = (Decode newDecoder ⟨true, none, false⟩ (str "[X-Trace: 1]")).1.sink ++ [sh] ∧
        sh.req = some req ∧ req.URL.Host = [] ∧ req.Host = [] :=
  ⟨C18_single_slash_line_has_no_host _ _ ⟨true, none, false⟩ (str "/foo?q=1")
      (by decide) (by decide) (by decide) rfl,
    C18_single_slash_line_has_no_host _ _ ⟨true, none, false⟩ (str "///x")
      (by decide) (by decide) (by decide) rfl⟩

/-- C19: for every decoder state and every URI line that decodes with success, the header
set of the descriptor sent is the header map at the time of the call without its `Host`
entry: every key other than `Host` reads in it as in the header map, `Host` reads as
absent, and its entries are the entries of the header map whose key is not `Host`; the
fresh request brings no header of its own. -/
theorem C19_header_set_is_map_without_Host (d d1 : decoder) (env : SelectEnv) (line : Bytes)
    (h47 : line.head? = some 47) (hok : Decode d env line = (d1, .ok)) :
    ∃ sh req, d1.sink = d.sink ++ [sh] ∧ sh.req = some req ∧
      (∀ k, req.Header.lookup k = if k = str "Host" then none else d.header.lookup k) ∧
      (∀ e, e ∈ req.Header.entries ↔ e ∈ d.header.entries ∧ e.1 ≠ str "Host") := by
  rw [Decode_uri _ _ _ h47] at hok
  obtain ⟨req0, req, hreq, hm, hd1, _, _⟩ := decodeURI_ok _ _ _ _ hok
  have hl := (mergeHeaders_fresh d.header _ _ req0 req hreq hm).1
  refine ⟨⟨some req, str "REQUEST"⟩, req, by rw [hd1], rfl, hl, ?_⟩
  intro e
  constructor
  · intro he
    have h1 := Header.lookup_of_mem _ e he
    rw [hl] at h1
    by_cases hk : e.1 = str "Host"
    · rw [if_pos hk] at h1; exact absurd h1 (by simp)
    · rw [if_neg hk] at h1
      exact ⟨Header.mem_of_lookup _ _ _ h1, hk⟩
  · intro ⟨he, hk⟩
    have h1 := Header.lookup_of_mem _ e he
    have h2 := hl e.1
    rw [if_neg hk, h1] at h2
    exact Header.mem_of_lookup _ _ _ h2

/-- C19, on a decoder that holds `Host`, `X-Trace` and `Accept`, given `/foo`. -/
theorem C19_witness :
    ∃ sh req,
      (Decode (DecodeAll newDecoder [(⟨true, none, false⟩, str "[Host: h]"),
          (⟨true, none, false⟩, str "[X-Trace: 1]"), (⟨true, none, false⟩, str "[accept: */*]")]).1
        ⟨true, none, false⟩ (str "/foo")).1.sink
        = (DecodeAll newDecoder [(⟨true, none, false⟩, str "[Host: h]"),
          (⟨true, none, false⟩, str "[X-Trace: 1]"),
          (⟨true, none, false⟩, str "[accept: */*]")]).1.sink ++ [sh] ∧
      sh.req = some req ∧
      (∀ k, req.Header.lookup k = if k = str "Host" then none else
        (DecodeAll newDecoder [(⟨true, none, false⟩, str "[Host: h]"),
          (⟨true, none, false⟩, str "[X-Trace: 1]"),
          (⟨true, none, false⟩, str "[accept: */*]")]).1.header.lookup k) ∧
      (∀ e, e ∈ req.Header.entries ↔
        e ∈ (DecodeAll newDecoder [(⟨true, none, false⟩, str "[Host: h]"),
          (⟨true, none, false⟩, str "[X-Trace: 1]"),
          (⟨true, none, false⟩, str "[accept: */*]")]).1.header.entries ∧ e.1 ≠ str "Host") :=
  C19_header_set_is_map_without_Host _ _ ⟨true, none, false⟩ (str "/foo") rfl rfl

end uri
